import Mathlib

/-!
Verification development for the hellomouse-apps-api server.

Rust handler code is shallowly embedded: database tables become lists of
row structures, SQL statements become pure list operations, and each
handler function becomes a Lean function from the relevant slice of
database state (plus its arguments) to the updated state and result.
External oracles (the password-hash verifier, Unicode character classes)
are taken as function parameters. Definitions come first, theorems follow.
-/

/-- Permission levels, from `src/shared/types/account.rs` (`PermLevel`,
`View = 0 .. Owner = 4`). -/
inductive PermLevel
  | view
  | interact
  | selfEdit
  | edit
  | owner
deriving DecidableEq, Repr

/-- The integer representation (`#[repr(i32)]`) of a permission level. -/
def PermLevel.toCode : PermLevel → Nat
  | .view => 0
  | .interact => 1
  | .selfEdit => 2
  | .edit => 3
  | .owner => 4

/-- First-match association lookup over string keys (the behaviour of a
Rust `HashMap` / SQL unique-key lookup once represented as a list). -/
def alookup {β : Type} : List (String × β) → String → Option β
  | [], _ => none
  | kv :: rest, u => if kv.1 = u then some kv.2 else alookup rest u

/-- Insert one element into a list already sorted by `le`. -/
def insertSorted {α : Type} (le : α → α → Bool) (a : α) : List α → List α
  | [] => [a]
  | b :: l => if le a b then a :: b :: l else b :: insertSorted le a l

/-- Sorting a table, used to embed SQL `ORDER BY`. Insertion sort is
structurally recursive, so concrete states evaluate by `decide`. -/
def sortRows {α : Type} (le : α → α → Bool) : List α → List α
  | [] => []
  | a :: l => insertSorted le a (sortRows le l)

/-- `SELECT DISTINCT`: drop duplicates, keeping first occurrences. -/
def distinctAux {α : Type} [DecidableEq α] (seen : List α) : List α → List α
  | [] => []
  | a :: t => if a ∈ seen then distinctAux seen t else a :: distinctAux (a :: seen) t

/-- `SELECT DISTINCT` over a result list. -/
def distinctList {α : Type} [DecidableEq α] (l : List α) : List α := distinctAux [] l

/-- Rust `String::len()`: the UTF-8 byte length of a string. -/
def rustStrLen (s : String) : Nat := (s.toList.map Char.utf8Size).sum

namespace Music

/-- One row of `music.playlist_perms` (unique on `(id, user_id)`), from
`src/music/handlers/postgres_handler.rs`. -/
structure PlaylistPermRow where
  id : Nat
  user_id : String
  perm_id : PermLevel
deriving DecidableEq, Repr

/-- `get_user_perm`: `SELECT * FROM music.playlist_perms WHERE id = $1 AND
user_id = $2` (`fetch_one`, so the first matching row or none). -/
def get_user_perm (perms : List PlaylistPermRow) (user_id : String) (id : Nat) :
    Option PermLevel :=
  (perms.find? (fun r => r.id = id && r.user_id = user_id)).map (·.perm_id)

/-- `can_user_view_playlist`, lines 189-194 of
`src/music/handlers/postgres_handler.rs`. -/
def can_user_view_playlist (perms : List PlaylistPermRow) (user_id : String) (id : Nat) :
    Bool :=
  match get_user_perm perms user_id id with
  | none => false
  | some perm => perm = PermLevel.view || perm = PermLevel.edit || perm = PermLevel.owner

/-- Response of a read endpoint as far as the permission gate is concerned. -/
inductive RouteResult (α : Type)
  | ok (body : α)
  | noViewPermission
deriving DecidableEq, Repr

/-- The gate of `get_playlist` (`GET /v1/music/playlist/single`,
`src/music/app.rs` lines 121-136): deny with `no_view_permission!` unless
`can_user_view_playlist`, else serve the playlist id. -/
def get_playlist_route (perms : List PlaylistPermRow) (user_id : String) (id : Nat) :
    RouteResult Nat :=
  if !(can_user_view_playlist perms user_id id) then RouteResult.noViewPermission
  else RouteResult.ok id

/-- One row of `site.status` as read by `can_add_songs`. -/
structure StatusRow where
  id : Nat
  created : Int
  finished : Int
  name : String
  data : String
  requestor : String
  priority : Int
  status : String
deriving DecidableEq, Repr

/-- The `COUNT(*)` inside `can_add_songs`: the caller's `site.status` rows
named `music_download` with status `queued`. -/
def queued_music_download_count (status : List StatusRow) (user_id : String) : Nat :=
  (status.filter (fun r =>
    r.requestor = user_id && r.name = "music_download" && r.status = "queued")).length

/-- `can_add_songs`, lines 247-255 of `src/music/handlers/postgres_handler.rs`:
admits iff `count + min(max_songs_in_queue, count + song_url_len) <=
max_songs_in_queue`. -/
def can_add_songs (status : List StatusRow) (max_songs_in_queue : Nat)
    (user_id : String) (song_url_len : Nat) : Bool :=
  let count := queued_music_download_count status user_id
  count + min max_songs_in_queue (count + song_url_len) ≤ max_songs_in_queue

/-- Responses of the `add_songs_by_url` route that matter for admission. -/
inductive AddSongsResult
  | tooManyRequests
  | queued
deriving DecidableEq, Repr

/-- Admission decision of `add_songs_by_url` (`POST /v1/music/playlist/song/url`,
`src/music/app.rs` lines 198-215): 429 when `can_add_songs` is false,
otherwise the request is admitted and enqueued. -/
def add_songs_by_url_route (status : List StatusRow) (max_songs_in_queue : Nat)
    (user_id : String) (song_url_len : Nat) : AddSongsResult :=
  if !(can_add_songs status max_songs_in_queue user_id song_url_len) then
    AddSongsResult.tooManyRequests
  else AddSongsResult.queued

end Music

namespace Site

/-- One row of `site.queue`, from `src/site/handlers/web_handler.rs`. -/
structure QueueRow where
  id : Nat
  created : Int
  name : String
  data : String
  requestor : String
  priority : Int
deriving DecidableEq, Repr

/-- The job-queue slice of database state plus the log of emitted
`NOTIFY` channel names. -/
structure SiteState where
  queue : List QueueRow
  status : List Music.StatusRow
  notify_log : List String
deriving DecidableEq, Repr

/-- `queue_task`, lines 54-70 of `src/site/handlers/web_handler.rs`:
insert into `site.queue`, insert into `site.status` with status `queued`
under the same id, then `NOTIFY hellomouse_apps_site_update`. -/
def queue_task (st : SiteState) (id : Nat) (now : Int) (cmd data user : String)
    (priority : Int) : SiteState :=
  { queue := st.queue ++ [⟨id, now, cmd, data, user, priority⟩],
    status := st.status ++ [⟨id, now, now, cmd, data, user, priority, "queued"⟩],
    notify_log := st.notify_log ++ ["hellomouse_apps_site_update"] }

/-- `add_songs_by_url`, lines 257-274 of
`src/music/handlers/postgres_handler.rs`: truncate the URL list to
`max_songs_in_queue`, insert a single `site.status` row (name
`music_add_urls_to_playlist`, priority 10, status `queued`, data
`<playlist_id>,<url1>,<url2>,…`) and `NOTIFY`; no `site.queue` insert. -/
def add_songs_by_url (st : SiteState) (max_songs_in_queue : Nat) (id : Nat) (now : Int)
    (user_id : String) (playlist_id : String) (song_urls : List String) : SiteState :=
  let song_urls := song_urls.take (min max_songs_in_queue song_urls.length)
  { st with
    status := st.status ++ [⟨id, now, now, "music_add_urls_to_playlist",
      playlist_id ++ "," ++ String.intercalate "," song_urls, user_id, 10, "queued"⟩],
    notify_log := st.notify_log ++ ["hellomouse_apps_site_update"] }

end Site

namespace Board

/-- One row of `board.board_perms` (unique on `(board_id, user_id)`). -/
structure BoardPermRow where
  board_id : Nat
  user_id : String
  perm_id : PermLevel
deriving DecidableEq, Repr

/-- One row of `board.pins` as far as listing order is concerned. -/
structure PinRow where
  id : Nat
  board_id : Nat
  pin_type : Nat
  content : String
  creator_id : String
  created : Int
  edited : Int
  flags : Nat
deriving DecidableEq, Repr

/-- `SortPin` from `src/board/types/pin.rs`. -/
inductive SortPin
  | created
  | edited
deriving DecidableEq, Repr

/-- The secondary sort key column chosen by `sort_by`. -/
def sortKey : SortPin → PinRow → Int
  | .created, p => p.created
  | .edited, p => p.edited

/-- The primary ordering key in `get_pins` / `get_favorites`:
`CASE when (flags & 4 = 4) then 2 when (flags & 2 = 2) then 0 else 1 end`
(`PINNED = 4`, `ARCHIVED = 2`). -/
def flagBucket (flags : Nat) : Nat :=
  if flags &&& 4 = 4 then 2 else if flags &&& 2 = 2 then 0 else 1

/-- The two-level `ORDER BY` comparator of `get_pins` / `get_favorites`:
flag bucket first, then the chosen `created`/`edited` key, both in the same
direction (`desc = true` is the SQL `DESC` branch). -/
def pinLe (desc : Bool) (sb : SortPin) (a b : PinRow) : Bool :=
  if flagBucket a.flags = flagBucket b.flags then
    (if desc then sortKey sb b ≤ sortKey sb a else sortKey sb a ≤ sortKey sb b)
  else
    (if desc then flagBucket b.flags < flagBucket a.flags
     else flagBucket a.flags < flagBucket b.flags)

/-- Case-insensitive substring search over character lists, embedding SQL
`ILIKE '%' || pat || '%'`. -/
def containsCI (pat : List Char) : List Char → Bool
  | [] => pat.isEmpty
  | c :: rest => pat.isPrefixOf (c :: rest) || containsCI pat rest

/-- `content ILIKE '%' || $2 || '%'`. -/
def ilike_contains (hay pat : String) : Bool :=
  containsCI (pat.toList.map Char.toLower) (hay.toList.map Char.toLower)

/-- `get_pins`, lines 686-721 of `src/board/handlers/postgres_handler.rs`:
join pins with the caller's board perm, apply the optional board / search /
creator filters, order by the two-level comparator (direction defaults to
`DESC`), then `OFFSET`/`LIMIT` with the limit capped at 100 (default 20). -/
def get_pins (perms : List BoardPermRow) (pins : List PinRow) (user : String)
    (board_id : Option Nat) (offset : Option Nat) (limit : Option Nat)
    (creator : Option String) (search_query : Option String)
    (sort_by : Option SortPin) (sort_down : Option Bool) : List PinRow :=
  let desc := sort_down.getD true
  let sb := sort_by.getD SortPin.created
  let rows := pins.filter (fun p =>
    perms.any (fun q => q.user_id = user && q.board_id = p.board_id) &&
    (match board_id with | none => true | some b => p.board_id = b) &&
    (match search_query with | none => true | some s => ilike_contains p.content s) &&
    (match creator with | none => true | some c => p.creator_id = c))
  ((sortRows (pinLe desc sb) rows).drop (offset.getD 0)).take (min 100 (limit.getD 20))

/-- `get_favorites`, lines 781-812 of `src/board/handlers/postgres_handler.rs`:
pins joined with the caller's favorites and board perm, same two-level
ordering, offset/limit capped at 100. -/
def get_favorites (perms : List BoardPermRow) (pins : List PinRow)
    (favorites : List (String × Nat)) (user : String)
    (offset : Option Nat) (limit : Option Nat)
    (sort_by : Option SortPin) (sort_down : Option Bool) : List PinRow :=
  let desc := sort_down.getD true
  let sb := sort_by.getD SortPin.created
  let rows := pins.filter (fun p =>
    favorites.any (fun f => f.1 = user && f.2 = p.id) &&
    perms.any (fun q => q.user_id = user && q.board_id = p.board_id))
  ((sortRows (pinLe desc sb) rows).drop (offset.getD 0)).take (min 100 (limit.getD 20))

/-- "Pinned precede normal precede archived": whenever `a` appears before `b`,
a pinned `b` forces a pinned `a`, and an archived non-pinned `a` forces an
archived non-pinned `b`. -/
def pinnedFirstArchivedLast (a b : PinRow) : Prop :=
  ((b.flags &&& 4 = 4) → (a.flags &&& 4 = 4)) ∧
  ((¬ a.flags &&& 4 = 4 ∧ a.flags &&& 2 = 2) → (¬ b.flags &&& 4 = 4 ∧ b.flags &&& 2 = 2))

end Board

namespace Login

/-- The configuration options consumed by the login path
(`src/shared/util/config.rs`). -/
structure LoginConfig where
  max_password_length : Nat
  login_attempt_window : Int
  login_attempt_max_per_window : Nat
deriving DecidableEq, Repr

/-- One row of `login_attempts` (`id SERIAL, name, ip, success, time`). -/
structure AttemptRow where
  id : Nat
  name : String
  ip : String
  success : Bool
  time : Int
deriving DecidableEq, Repr

/-- The authentication slice of database state: the `users` table as
`(id, password_hash)` pairs, the `login_attempts` table, and the next
serial id. -/
structure AuthState where
  users : List (String × String)
  attempts : List AttemptRow
  next_id : Nat
deriving DecidableEq, Repr

/-- Rust `str::to_lowercase`, character-wise. -/
def rustToLowercase (s : String) : String := ⟨s.toList.map Char.toLower⟩

/-- `can_login`, lines 73-98 of `src/shared/handlers/postgres_handler.rs`.
`verify` is the `libpasta::verify_password` oracle. Returns the success flag
and the updated state (a `login_attempts` row is appended unless the
`public` early-return fires). -/
def can_login (verify : String → String → Bool) (cfg : LoginConfig) (st : AuthState)
    (user_id password ip : String) (now : Int) : Bool × AuthState :=
  if user_id = "public" then (false, st)
  else
    let pwo : String × Bool :=
      if cfg.max_password_length < rustStrLen password then ("fake_password", false)
      else (password, true)
    let p := (alookup st.users user_id).getD ""
    let success := verify p pwo.1 && decide (0 < pwo.1.toList.length) && pwo.2
    (success,
      { st with
        attempts := st.attempts ++ [⟨st.next_id, rustToLowercase user_id, ip, success, now⟩],
        next_id := st.next_id + 1 })

/-- The `DELETE` at the top of `should_ratelimit`: keep only the rows whose id
is among the 10000 most recent by time. -/
def pruneAttempts (attempts : List AttemptRow) : List AttemptRow :=
  let keep := ((sortRows (fun a b => decide (b.time ≤ a.time)) attempts).take 10000).map (·.id)
  attempts.filter (fun r => keep.contains r.id)

/-- `should_ratelimit`, lines 57-71 of
`src/shared/handlers/postgres_handler.rs`: prune `login_attempts` to the
10000 most recent rows, then rate-limit iff the count of failed attempts
matching the username or the ip inside the sliding window reaches the
configured threshold. -/
def should_ratelimit (cfg : LoginConfig) (st : AuthState) (user_id ip : String)
    (now : Int) : Bool × AuthState :=
  let st := { st with attempts := pruneAttempts st.attempts }
  let count := (st.attempts.filter (fun r =>
    (r.name = user_id || r.ip = ip) && r.success = false &&
      decide (now - cfg.login_attempt_window ≤ r.time))).length
  (decide (cfg.login_attempt_max_per_window ≤ count), st)

/-- The `POST /v1/login` route (`src/shared/app.rs`): run `should_ratelimit`;
answer 429 without verifying if it fires, otherwise run `can_login`. Only the
resulting state is kept here. -/
def login_route (verify : String → String → Bool) (cfg : LoginConfig) (st : AuthState)
    (username password ip : String) (now : Int) : AuthState :=
  let rl := should_ratelimit cfg st username ip now
  if rl.1 then rl.2
  else (can_login verify cfg rl.2 username password ip now).2

/-- States of the login subsystem reachable from an initial state with any
`users` table and an empty `login_attempts` table, under any sequence of
login attempts. No other operation of the server touches `login_attempts`. -/
inductive Reachable (verify : String → String → Bool) (cfg : LoginConfig) :
    AuthState → Prop
  | init (users : List (String × String)) : Reachable verify cfg ⟨users, [], 0⟩
  | step {st : AuthState} (username password ip : String) (now : Int) :
      Reachable verify cfg st →
      Reachable verify cfg (login_route verify cfg st username password ip now)

end Login

namespace BoardMod

/-- A permission map (`HashMap<String, Perm>`) as an association list with
distinct keys. -/
abbrev PermMap := List (String × PermLevel)

/-- `HashMap::insert`: replace the binding if the key is present, otherwise
add it. -/
def permInsert (m : PermMap) (u : String) (p : PermLevel) : PermMap :=
  if (alookup m u).isSome then m.map (fun kv => if kv.1 = u then (u, p) else kv)
  else m ++ [(u, p)]

/-- `HashMap` equality (`perms != &b.perms`): same bindings pointwise. -/
def permMapBEq (a b : PermMap) : Bool :=
  (a.map Prod.fst ++ b.map Prod.fst).all (fun k => decide (alookup a k = alookup b k))

/-- The in-memory transformation inside `modify_board` when the caller holds
`Edit` (lines 193-214 of `src/board/handlers/postgres_handler.rs`): demote
every submitted `Owner` entry to `Edit`, then write back the previous level of
every `Edit`/`Owner` holder other than the caller. -/
def restrict_perms_for_editor (user_id : String) (b_perms perms : PermMap) : PermMap :=
  let perms := perms.map (fun kv =>
    if kv.2 = PermLevel.owner then (kv.1, PermLevel.edit) else kv)
  (b_perms.filter (fun kv =>
      (kv.2 = PermLevel.edit || kv.2 = PermLevel.owner) && kv.1 ≠ user_id)).foldl
    (fun m kv => permInsert m kv.1 kv.2) perms

/-- The permission portion of `modify_board` (lines 190-246): if a perms map
is supplied and differs from the stored one, apply the editor restriction
(when the caller's level is `Edit`), delete all perm rows, reinsert the
creator as `Owner`, then reinsert every entry whose user exists, skipping the
creator. The result is the stored permission map after the call. -/
def modify_board_perms (users : List String) (user_id creator : String)
    (b_perms : PermMap) (perms : Option PermMap) : PermMap :=
  match perms with
  | none => b_perms
  | some submitted =>
    if permMapBEq submitted b_perms then b_perms
    else
      let submitted :=
        if alookup b_perms user_id = some PermLevel.edit then
          restrict_perms_for_editor user_id b_perms submitted
        else submitted
      (creator, PermLevel.owner) ::
        submitted.filter (fun kv => kv.1 ≠ creator && users.contains kv.1)

/-- The editor-restriction rules exactly as the claim states them: submitted
`Owner` entries are demoted to `Edit`; every user other than the caller who
previously held `Edit` or `Owner` keeps their previous level; the creator
holds exactly `Owner`; entries for usernames with no `users` row are
dropped. -/
def editor_restriction_spec (users : List String) (user_id creator : String)
    (b_perms submitted : PermMap) (u : String) : Option PermLevel :=
  if u = creator then some PermLevel.owner
  else if u ≠ user_id ∧ (alookup b_perms u = some PermLevel.edit ∨
      alookup b_perms u = some PermLevel.owner) then
    alookup b_perms u
  else if users.contains u then
    match alookup submitted u with
    | some PermLevel.owner => some PermLevel.edit
    | q => q
  else none

end BoardMod

namespace PinHistory

/-- One row of `board.pin_history` (`id SERIAL`). -/
structure HistoryRow where
  id : Nat
  editor : String
  pin_id : Nat
  content : String
  time : Int
  flags : Nat
  attachment_paths : List String
  metadata : String
deriving DecidableEq, Repr

/-- `id IN (SELECT MAX(id) FROM board.pin_history)`: the row carries the
maximum id of the whole table. -/
def isGlobalMaxId (hist : List HistoryRow) (r : HistoryRow) : Bool :=
  hist.all (fun s => s.id ≤ r.id)

/-- The `fetch_one` at the top of `add_to_pin_history`:
`SELECT * FROM board.pin_history WHERE pin_id = $1 AND id IN (SELECT MAX(id)
FROM board.pin_history)` — the row with the table-wide maximum id, and only
if it belongs to this pin. -/
def fetchCoalesceRow (hist : List HistoryRow) (pin_id : Nat) : Option HistoryRow :=
  hist.find? (fun r => r.pin_id = pin_id && isGlobalMaxId hist r)

/-- The ids kept by the history prune: the 100 most recent rows (by time)
for this pin. -/
def keepIdsForPin (hist : List HistoryRow) (pin_id : Nat) : List Nat :=
  ((sortRows (fun a b => decide (b.time ≤ a.time))
      (hist.filter (fun s => s.pin_id = pin_id))).take 100).map (·.id)

/-- `add_to_pin_history`, lines 861-898 of
`src/board/handlers/postgres_handler.rs`: overwrite the table-wide max-id row
when it is this pin's, the editor matches and it is younger than 5 minutes;
otherwise prune this pin's history to the 100 most recent rows and insert a
new row. Returns the new table and next serial id. -/
def add_to_pin_history (hist : List HistoryRow) (next_id : Nat) (pin_id : Nat)
    (user : String) (now : Int) (content : String) (attachments : List String)
    (flags : Nat) (metadata : String) : List HistoryRow × Nat :=
  let update_instead :=
    match fetchCoalesceRow hist pin_id with
    | some history => history.editor = user && decide (now - 5 * 60 < history.time)
    | none => false
  if update_instead then
    (hist.map (fun r => if isGlobalMaxId hist r then
        { id := r.id, editor := user, pin_id := pin_id, content := content,
          time := now, flags := flags, attachment_paths := attachments,
          metadata := metadata }
      else r), next_id)
  else
    ((hist.filter (fun r =>
        r.pin_id ≠ pin_id || (keepIdsForPin hist pin_id).contains r.id))
      ++ [⟨next_id, user, pin_id, content, now, flags, attachments, metadata⟩],
      next_id + 1)

/-- The coalescing target as the claim (and spec §4.3) describes it: the most
recent history row belonging to this pin (its max-id row). This claim-side
definition exists only to be compared with `fetchCoalesceRow` above. -/
def claimed_coalesce_target (hist : List HistoryRow) (pin_id : Nat) :
    Option HistoryRow :=
  (hist.filter (fun r => r.pin_id = pin_id)).find? (fun r =>
    (hist.filter (fun s => s.pin_id = pin_id)).all (fun s => s.id ≤ r.id))

end PinHistory

namespace PinColors

/-- One row of `board.pins` as far as the bulk color edit is concerned
(`metadata` kept as a JSON-object association list). -/
structure PinRec where
  id : Nat
  board_id : Nat
  creator_id : String
  edited : Int
  flags : Nat
  metadata : List (String × String)
deriving DecidableEq, Repr

/-- `get_perms_for_pin`: the caller's permission on the pin's parent board. -/
def get_perms_for_pin (perms : List Board.BoardPermRow) (pins : List PinRec)
    (user : String) (pin_id : Nat) : Option PermLevel :=
  match pins.find? (fun p => p.id = pin_id) with
  | none => none
  | some p => (perms.find? (fun q =>
      q.board_id = p.board_id && q.user_id = user)).map (·.perm_id)

/-- `can_edit_pin`, lines 739-755 of `src/board/handlers/postgres_handler.rs`. -/
def can_edit_pin (perms : List Board.BoardPermRow) (pins : List PinRec)
    (user : String) (pin_id : Nat) : Bool :=
  match get_perms_for_pin perms pins user pin_id with
  | none => false
  | some perm =>
    if perm = PermLevel.edit || perm = PermLevel.owner then true
    else if perm = PermLevel.selfEdit then
      match pins.find? (fun p => p.id = pin_id) with
      | some pin => pin.creator_id = user
      | none => false
    else false

/-- `jsonb_set(metadata::jsonb, '{color}', '"<new_color>"')`. -/
def jsonbSetColor (metadata : List (String × String)) (color : String) :
    List (String × String) :=
  if (alookup metadata "color").isSome then
    metadata.map (fun kv => if kv.1 = "color" then ("color", color) else kv)
  else metadata ++ [("color", color)]

/-- Result of a store operation (`Result<(), sqlx::Error>` plus the table). -/
inductive DbResult (α : Type)
  | ok (val : α)
  | err
deriving DecidableEq, Repr

/-- `mass_edit_pin_colors`, lines 630-655 of
`src/board/handlers/postgres_handler.rs`: cap ids at 100, filter to editable
pins, silently return `Ok` when the color fails the hex-shape check
(`len() > 7` in bytes, or a character that is not `#`, alphabetic or
numeric), otherwise write the color into each pin's `metadata->color` and
update `edited`. `isAlphabetic` / `isNumeric` are the Rust `char` class
oracles. -/
def mass_edit_pin_colors (isAlphabetic isNumeric : Char → Bool)
    (perms : List Board.BoardPermRow) (pins : List PinRec) (user : String)
    (pin_ids : List Nat) (new_color : String) (now : Int) : DbResult (List PinRec) :=
  let pin_ids := pin_ids.take 100
  let pin_ids := pin_ids.filter (fun x => can_edit_pin perms pins user x)
  if 7 < rustStrLen new_color ||
      !(new_color.toList.all (fun c => c = '#' || isAlphabetic c || isNumeric c)) then
    DbResult.ok pins
  else
    DbResult.ok (pins.map (fun p =>
      if pin_ids.contains p.id then
        { p with edited := now, metadata := jsonbSetColor p.metadata new_color }
      else p))

/-- HTTP responses of the bulk color route. -/
inductive ColorsRouteResponse
  | ok200 (msg : String)
  | internalError (msg : String)
deriving DecidableEq, Repr

/-- `bulk_modify_pin_colors` (`PUT /v1/board/pins/bulk_colors`,
`src/board/app.rs` lines 389-402): `Ok(())` maps to 200 with
`"Updated pin colors"`, errors map to 500. -/
def bulk_modify_pin_colors (isAlphabetic isNumeric : Char → Bool)
    (perms : List Board.BoardPermRow) (pins : List PinRec) (user : String)
    (pin_ids : List Nat) (color : String) (now : Int) : ColorsRouteResponse :=
  match mass_edit_pin_colors isAlphabetic isNumeric perms pins user pin_ids color now with
  | DbResult.ok _ => ColorsRouteResponse.ok200 "Updated pin colors"
  | DbResult.err => ColorsRouteResponse.internalError "Error updating pin"

end PinColors

namespace MassShare

/-- One row of `board.boards` as far as bulk perm changes are concerned. -/
structure BoardRow where
  id : Nat
  creator_id : String
deriving DecidableEq, Repr

/-- One row of `board.board_perms`. -/
structure BPermRow where
  board_id : Nat
  user_id : String
  perm_id : PermLevel
deriving DecidableEq, Repr

/-- The board-store slice of database state for bulk perm changes. -/
structure BoardState where
  users : List String
  boards : List BoardRow
  perms : List BPermRow
deriving DecidableEq, Repr

/-- The stored permission of `u` on board `bid` (unique row). -/
def findPerm (perms : List BPermRow) (bid : Nat) (u : String) : Option PermLevel :=
  (perms.find? (fun p => p.board_id = bid && p.user_id = u)).map (·.perm_id)

/-- `SELECT DISTINCT board_id FROM board.boards INNER JOIN board.board_perms
ON user_id = $1 and board_id = ANY($2) and perm_id = $3 LIMIT 200`. The join
condition never relates the two tables, so an empty `boards` table empties the
cross join; otherwise the distinct board ids of the matching perm rows. -/
def allowed_board_ids (st : BoardState) (user : String) (ids : List Nat)
    (level : PermLevel) : List Nat :=
  if st.boards.isEmpty then []
  else distinctList ((st.perms.filter (fun p =>
    p.user_id = user && ids.contains p.board_id && p.perm_id = level)).map (·.board_id))

/-- `SELECT DISTINCT board_id, user_id FROM board.boards INNER JOIN
board.board_perms ON board_id = ANY($1) and perm_id < $2 LIMIT 200`, mapped to
its `user_id` column: users holding a sub-`Edit` perm on some edit-set
board. -/
def can_edit_users (st : BoardState) (edit_ids : List Nat) : List String :=
  if st.boards.isEmpty then []
  else (distinctList ((st.perms.filter (fun p =>
    edit_ids.contains p.board_id && p.perm_id.toCode < PermLevel.edit.toCode)).map
      (fun p => (p.board_id, p.user_id)))).map Prod.snd

/-- `INSERT … ON CONFLICT (board_id, user_id) DO UPDATE SET perm_id = $3`. -/
def upsertPerm (perms : List BPermRow) (bid : Nat) (u : String) (lvl : PermLevel) :
    List BPermRow :=
  if perms.any (fun p => p.board_id = bid && p.user_id = u) then
    perms.map (fun p =>
      if p.board_id = bid && p.user_id = u then { p with perm_id := lvl } else p)
  else perms ++ [⟨bid, u, lvl⟩]

/-- The `for (username, perm) in perms_to_add` loop of
`mass_change_board_share_perms`: skip unknown users; upsert over the owner-set
boards; then the edit-channel insert binds the `can_edit_users` string array
to the scalar `user_id` column, which PostgreSQL rejects, so reaching it
aborts the whole transaction (`none`). -/
def applyAddLoop (owner_ids edit_ids : List Nat) (ceu : List String)
    (users : List String) (perms_to_add : List (String × PermLevel))
    (perms : List BPermRow) : Option (List BPermRow) :=
  match perms_to_add with
  | [] => some perms
  | (username, perm) :: rest =>
    if !(users.contains username) then
      applyAddLoop owner_ids edit_ids ceu users rest perms
    else
      let perms := if 0 < owner_ids.length then
          owner_ids.foldl (fun ps b => upsertPerm ps b username perm) perms
        else perms
      if 0 < ceu.length && 0 < edit_ids.length then none
      else applyAddLoop owner_ids edit_ids ceu users rest perms

/-- `mass_change_board_share_perms`, lines 408-498 of
`src/board/handlers/postgres_handler.rs`. A `none` count means the
transaction failed and was rolled back (state unchanged). -/
def mass_change_board_share_perms (st : BoardState) (user : String) (ids : List Nat)
    (perms_to_add : List (String × PermLevel)) (users_to_delete : List String) :
    BoardState × Option Nat :=
  let ids := ids.take 200
  let owner_ids := allowed_board_ids st user ids PermLevel.owner
  let edit_ids := allowed_board_ids st user ids PermLevel.edit
  let ceu := can_edit_users st edit_ids
  match applyAddLoop owner_ids edit_ids ceu st.users perms_to_add st.perms with
  | none => (st, none)
  | some perms =>
    let perms := if 0 < owner_ids.length && 0 < users_to_delete.length then
        perms.filter (fun p =>
          !(st.boards.any (fun b => b.id = p.board_id && p.user_id ≠ b.creator_id) &&
            owner_ids.contains p.board_id && users_to_delete.contains p.user_id))
      else perms
    let perms := if 0 < edit_ids.length && 0 < users_to_delete.length &&
        0 < ceu.length then
        perms.filter (fun p =>
          !(st.boards.any (fun b => b.id = p.board_id && p.user_id ≠ b.creator_id) &&
            edit_ids.contains p.board_id && users_to_delete.contains p.user_id &&
            ceu.contains p.user_id))
      else perms
    let perms := if 0 < owner_ids.length then
        perms.map (fun p =>
          if st.boards.any (fun b => b.creator_id = p.user_id && b.id = p.board_id) &&
              owner_ids.contains p.board_id then
            { p with perm_id := PermLevel.owner }
          else p)
      else perms
    let perms := if 0 < edit_ids.length then
        perms.map (fun p =>
          if st.boards.any (fun b => b.creator_id = p.user_id && b.id = p.board_id) &&
              edit_ids.contains p.board_id then
            { p with perm_id := PermLevel.owner }
          else p)
      else perms
    ({ st with perms := perms }, some (edit_ids.length + owner_ids.length))

end MassShare

theorem mem_insertSorted {α : Type} (le : α → α → Bool) (a x : α) (l : List α) :
    x ∈ insertSorted le a l ↔ x = a ∨ x ∈ l := by
  induction l with
  | nil => simp [insertSorted]
  | cons b t ih =>
    by_cases h : le a b = true
    · simp [insertSorted, h, or_comm, or_assoc, or_left_comm]
    · simp only [insertSorted, h, Bool.false_eq_true, if_false, List.mem_cons, ih]
      tauto

theorem mem_sortRows {α : Type} (le : α → α → Bool) (x : α) (l : List α) :
    x ∈ sortRows le l ↔ x ∈ l := by
  induction l with
  | nil => simp [sortRows]
  | cons a t ih => simp [sortRows, mem_insertSorted, ih]

theorem length_insertSorted {α : Type} (le : α → α → Bool) (a : α) (l : List α) :
    (insertSorted le a l).length = l.length + 1 := by
  induction l with
  | nil => rfl
  | cons b t ih =>
    by_cases h : le a b = true
    · simp [insertSorted, h]
    · simp [insertSorted, h, ih]

theorem length_sortRows {α : Type} (le : α → α → Bool) (l : List α) :
    (sortRows le l).length = l.length := by
  induction l with
  | nil => rfl
  | cons a t ih => simp [sortRows, length_insertSorted, ih]

theorem pairwise_insertSorted {α : Type} (le : α → α → Bool)
    (htrans : ∀ a b c, le a b = true → le b c = true → le a c = true)
    (htotal : ∀ a b, le a b = true ∨ le b a = true)
    (a : α) (l : List α) (hl : List.Pairwise (fun x y => le x y = true) l) :
    List.Pairwise (fun x y => le x y = true) (insertSorted le a l) := by
  induction l with
  | nil => simp [insertSorted]
  | cons b t ih =>
    rcases hl with - | ⟨hb, ht⟩
    by_cases h : le a b = true
    · simp only [insertSorted, h, if_true]
      refine List.Pairwise.cons ?_ (List.Pairwise.cons hb ht)
      intro y hy
      rcases List.mem_cons.mp hy with h' | h'
      · exact h' ▸ h
      · exact htrans a b y h (hb y h')
    · have hba : le b a = true := by
        rcases htotal a b with h' | h'
        · exact absurd h' h
        · exact h'
      simp only [insertSorted, h, Bool.false_eq_true, if_false]
      refine List.Pairwise.cons ?_ (ih ht)
      intro y hy
      rcases (mem_insertSorted le a y t).mp hy with h' | h'
      · exact h' ▸ hba
      · exact hb y h'

theorem pairwise_sortRows {α : Type} (le : α → α → Bool)
    (htrans : ∀ a b c, le a b = true → le b c = true → le a c = true)
    (htotal : ∀ a b, le a b = true ∨ le b a = true)
    (l : List α) :
    List.Pairwise (fun x y => le x y = true) (sortRows le l) := by
  induction l with
  | nil => simp [sortRows]
  | cons a t ih => exact pairwise_insertSorted le htrans htotal a (sortRows le t) ih

theorem toList_length_le_rustStrLen (s : String) : s.toList.length ≤ rustStrLen s := by
  unfold rustStrLen
  induction s.toList with
  | nil => simp
  | cons c t ih =>
    simp only [List.map_cons, List.sum_cons, List.length_cons]
    have := Char.utf8Size_pos c
    omega

namespace Board

theorem pinLe_total (desc : Bool) (sb : SortPin) (a b : PinRow) :
    pinLe desc sb a b = true ∨ pinLe desc sb b a = true := by
  unfold pinLe
  by_cases hab : flagBucket a.flags = flagBucket b.flags
  · have hba : flagBucket b.flags = flagBucket a.flags := hab.symm
    rw [if_pos hab, if_pos hba]
    cases desc <;> simp <;> omega
  · have hba : ¬ flagBucket b.flags = flagBucket a.flags := fun h => hab h.symm
    rw [if_neg hab, if_neg hba]
    cases desc <;> simp <;> omega

theorem pinLe_trans (desc : Bool) (sb : SortPin) (a b c : PinRow)
    (h1 : pinLe desc sb a b = true) (h2 : pinLe desc sb b c = true) :
    pinLe desc sb a c = true := by
  unfold pinLe at h1 h2 ⊢
  by_cases hab : flagBucket a.flags = flagBucket b.flags <;>
    by_cases hbc : flagBucket b.flags = flagBucket c.flags <;>
      by_cases hac : flagBucket a.flags = flagBucket c.flags <;>
        cases desc <;>
          simp_all <;> omega

theorem flagBucket_le_of_pinLe (sb : SortPin) (a b : PinRow)
    (h : pinLe true sb a b = true) : flagBucket b.flags ≤ flagBucket a.flags := by
  unfold pinLe at h
  by_cases hab : flagBucket a.flags = flagBucket b.flags
  · omega
  · simp [hab] at h
    omega

theorem flagBucket_eq_two_iff (f : Nat) : flagBucket f = 2 ↔ f &&& 4 = 4 := by
  unfold flagBucket
  by_cases h : f &&& 4 = 4 <;> by_cases h2 : f &&& 2 = 2 <;> simp [h, h2]

theorem flagBucket_eq_zero_iff (f : Nat) :
    flagBucket f = 0 ↔ (¬ f &&& 4 = 4 ∧ f &&& 2 = 2) := by
  unfold flagBucket
  by_cases h : f &&& 4 = 4 <;> by_cases h2 : f &&& 2 = 2 <;> simp [h, h2]

theorem flagBucket_le_two (f : Nat) : flagBucket f ≤ 2 := by
  unfold flagBucket
  by_cases h : f &&& 4 = 4 <;> by_cases h2 : f &&& 2 = 2 <;> simp [h, h2]

/-- Under `DESC`, the comparator sends pinned pins before normal pins before
archived pins. -/
theorem pinLe_bucket_consequence (sb : SortPin) (a b : PinRow)
    (h : pinLe true sb a b = true) :
    ((b.flags &&& 4 = 4) → (a.flags &&& 4 = 4)) ∧
    ((¬ a.flags &&& 4 = 4 ∧ a.flags &&& 2 = 2) →
      (¬ b.flags &&& 4 = 4 ∧ b.flags &&& 2 = 2)) := by
  have hle := flagBucket_le_of_pinLe sb a b h
  constructor
  · intro hb4
    have h2 : flagBucket b.flags = 2 := (flagBucket_eq_two_iff b.flags).mpr hb4
    have : flagBucket a.flags = 2 := by
      have := flagBucket_le_two a.flags
      omega
    exact (flagBucket_eq_two_iff a.flags).mp this
  · intro ha0
    have h0 : flagBucket a.flags = 0 := (flagBucket_eq_zero_iff a.flags).mpr ha0
    have : flagBucket b.flags = 0 := by omega
    exact (flagBucket_eq_zero_iff b.flags).mp this

theorem pairwise_pinLe_listing (desc : Bool) (sb : SortPin) (rows : List PinRow)
    (o l : Nat) :
    List.Pairwise (fun a b => pinLe desc sb a b = true)
      (((sortRows (pinLe desc sb) rows).drop o).take l) := by
  have hs := pairwise_sortRows (pinLe desc sb)
    (fun a b c => pinLe_trans desc sb a b c)
    (fun a b => pinLe_total desc sb a b) rows
  exact List.Pairwise.sublist
    ((List.take_sublist _ _).trans (List.drop_sublist _ _)) hs

end Board

/-- Claim C3, counterexample: a user holding an `Interact` permission row on a
playlist is denied by `can_user_view_playlist` and by the `get_playlist`
endpoint, although the claim promises access for any of the five levels. -/
theorem C3_counterexample :
    Music.get_user_perm [⟨0, "u", PermLevel.interact⟩] "u" 0 = some PermLevel.interact ∧
    Music.can_user_view_playlist [⟨0, "u", PermLevel.interact⟩] "u" 0 = false ∧
    Music.get_playlist_route [⟨0, "u", PermLevel.interact⟩] "u" 0 =
      Music.RouteResult.noViewPermission := by decide

/-- Claim C3 (amended): if a user holds a permission row on a playlist, then
`can_user_view_playlist` returns true exactly when that row's level is `View`,
`Edit` or `Owner`, and the `get_playlist` endpoint gated by it grants access
exactly in those cases (`Interact` and `SelfEdit` rows are denied). -/
theorem C3_playlist_view_permission
    (perms : List Music.PlaylistPermRow) (user_id : String) (id : Nat) (p : PermLevel)
    (h : Music.get_user_perm perms user_id id = some p) :
    Music.can_user_view_playlist perms user_id id =
      (p = PermLevel.view || p = PermLevel.edit || p = PermLevel.owner) ∧
    (Music.get_playlist_route perms user_id id = Music.RouteResult.ok id ↔
      (p = PermLevel.view ∨ p = PermLevel.edit ∨ p = PermLevel.owner)) := by
  have hview : Music.can_user_view_playlist perms user_id id =
      (p = PermLevel.view || p = PermLevel.edit || p = PermLevel.owner) := by
    unfold Music.can_user_view_playlist
    rw [h]
  refine ⟨hview, ?_⟩
  unfold Music.get_playlist_route
  rw [hview]
  cases p <;> simp

/-- Witness for `C3_playlist_view_permission` at a concrete `View` row. -/
theorem C3_playlist_view_permission_witness :
    Music.can_user_view_playlist [⟨7, "alice", PermLevel.view⟩] "alice" 7 =
      (PermLevel.view = PermLevel.view || PermLevel.view = PermLevel.edit ||
        PermLevel.view = PermLevel.owner) ∧
    (Music.get_playlist_route [⟨7, "alice", PermLevel.view⟩] "alice" 7 =
        Music.RouteResult.ok 7 ↔
      (PermLevel.view = PermLevel.view ∨ PermLevel.view = PermLevel.edit ∨
        PermLevel.view = PermLevel.owner)) :=
  C3_playlist_view_permission [⟨7, "alice", PermLevel.view⟩] "alice" 7 PermLevel.view
    (by decide)

/-- Claim C4, counterexample: with no queued `music_download` jobs, a request
for 6 URLs against a configured maximum of 5 is admitted by the code, although
`count + URL count = 6 > 5`, so the claim demands rejection. -/
theorem C4_counterexample :
    Music.queued_music_download_count [] "u" = 0 ∧
    Music.can_add_songs [] 5 "u" 6 = true ∧
    Music.add_songs_by_url_route [] 5 "u" 6 = Music.AddSongsResult.queued ∧
    Music.queued_music_download_count [] "u" + 6 > 5 := by decide

/-- Claim C4 (amended): a song-URL request is rejected with the too-many-queued
signal if and only if the caller's queued `music_download` count `c` is nonzero
and `2 * c + URL count` exceeds `max_songs_in_queue` (the code tests
`c + min(max, c + len) <= max`, which admits whenever `c = 0`). -/
theorem C4_admission_rule (status : List Music.StatusRow) (m : Nat)
    (user : String) (len : Nat) :
    Music.add_songs_by_url_route status m user len = Music.AddSongsResult.tooManyRequests ↔
      ¬(Music.queued_music_download_count status user = 0 ∨
        2 * Music.queued_music_download_count status user + len ≤ m) := by
  have hiff : Music.can_add_songs status m user len = true ↔
      (Music.queued_music_download_count status user = 0 ∨
        2 * Music.queued_music_download_count status user + len ≤ m) := by
    unfold Music.can_add_songs
    simp only [decide_eq_true_eq]
    omega
  constructor
  · intro hrej hc
    have htrue := hiff.mpr hc
    unfold Music.add_songs_by_url_route at hrej
    rw [htrue] at hrej
    simp at hrej
  · intro hc
    have hfalse : Music.can_add_songs status m user len = false := by
      cases hb : Music.can_add_songs status m user len
      · rfl
      · exact absurd (hiff.mp hb) hc
    unfold Music.add_songs_by_url_route
    rw [hfalse]
    rfl

/-- Claim C5, counterexample: the music song-URL enqueue inserts its `queued`
row into `site.status` only — `site.queue` is untouched, although the claim
says every enqueue inserts one row into both tables. -/
theorem C5_counterexample :
    (Site.add_songs_by_url ⟨[], [], []⟩ 5 1 0 "u" "p" ["http"]).queue = [] ∧
    (Site.add_songs_by_url ⟨[], [], []⟩ 5 1 0 "u" "p" ["http"]).status.length = 1 ∧
    (Site.add_songs_by_url ⟨[], [], []⟩ 5 1 0 "u" "p" ["http"]).notify_log =
      ["hellomouse_apps_site_update"] := by decide

/-- Claim C5 (amended): every enqueue through `queue_task` (pin previews and
site downloads) inserts one `site.queue` row and one `site.status` row with
status `queued` under the same id and emits `NOTIFY hellomouse_apps_site_update`;
the music song-URL enqueue inserts only the `site.status` row (status `queued`)
and emits the `NOTIFY`, leaving `site.queue` unchanged. -/
theorem C5_enqueue_writes (st : Site.SiteState) (id : Nat) (now : Int)
    (cmd data user playlist : String) (priority : Int) (m : Nat) (urls : List String) :
    ((Site.queue_task st id now cmd data user priority).queue =
        st.queue ++ [⟨id, now, cmd, data, user, priority⟩] ∧
      (Site.queue_task st id now cmd data user priority).status =
        st.status ++ [⟨id, now, now, cmd, data, user, priority, "queued"⟩] ∧
      (Site.queue_task st id now cmd data user priority).notify_log =
        st.notify_log ++ ["hellomouse_apps_site_update"]) ∧
    ((Site.add_songs_by_url st m id now user playlist urls).queue = st.queue ∧
      (Site.add_songs_by_url st m id now user playlist urls).status =
        st.status ++ [⟨id, now, now, "music_add_urls_to_playlist",
          playlist ++ "," ++
            String.intercalate "," (urls.take (min m urls.length)), user, 10, "queued"⟩] ∧
      (Site.add_songs_by_url st m id now user playlist urls).notify_log =
        st.notify_log ++ ["hellomouse_apps_site_update"]) :=
  ⟨⟨rfl, rfl, rfl⟩, ⟨rfl, rfl, rfl⟩⟩

/-- Claim C6: `get_pins` and `get_favorites` return sequences ordered by the
two-level comparator — flag bucket (`flags & PINNED → 2`,
`flags & ARCHIVED → 0`, else `1`) first, then the chosen `created`/`edited`
key, both in the caller-chosen direction, with descending the default — and
under descending order every pinned pin precedes every normal pin, which
precedes every archived pin. -/
theorem C6_pin_listing_order (perms : List Board.BoardPermRow)
    (pins : List Board.PinRow) (favorites : List (String × Nat)) (user : String)
    (board_id : Option Nat) (offset : Option Nat) (limit : Option Nat)
    (creator : Option String) (search_query : Option String)
    (sort_by : Option Board.SortPin) (sort_down : Option Bool) :
    ((sort_down = none → sort_down.getD true = true) ∧
      List.Pairwise (fun a b =>
          Board.pinLe (sort_down.getD true) (sort_by.getD Board.SortPin.created) a b = true)
        (Board.get_pins perms pins user board_id offset limit creator search_query
          sort_by sort_down) ∧
      List.Pairwise (fun a b =>
          Board.pinLe (sort_down.getD true) (sort_by.getD Board.SortPin.created) a b = true)
        (Board.get_favorites perms pins favorites user offset limit
          sort_by sort_down)) ∧
    (sort_down.getD true = true →
      List.Pairwise Board.pinnedFirstArchivedLast
        (Board.get_pins perms pins user board_id offset limit creator search_query
          sort_by sort_down) ∧
      List.Pairwise Board.pinnedFirstArchivedLast
        (Board.get_favorites perms pins favorites user offset limit
          sort_by sort_down)) := by
  have hpins : List.Pairwise (fun a b =>
      Board.pinLe (sort_down.getD true) (sort_by.getD Board.SortPin.created) a b = true)
      (Board.get_pins perms pins user board_id offset limit creator search_query
        sort_by sort_down) := by
    unfold Board.get_pins
    exact Board.pairwise_pinLe_listing _ _ _ _ _
  have hfavs : List.Pairwise (fun a b =>
      Board.pinLe (sort_down.getD true) (sort_by.getD Board.SortPin.created) a b = true)
      (Board.get_favorites perms pins favorites user offset limit
        sort_by sort_down) := by
    unfold Board.get_favorites
    exact Board.pairwise_pinLe_listing _ _ _ _ _
  refine ⟨⟨fun h => by rw [h]; rfl, hpins, hfavs⟩, fun hdesc => ⟨?_, ?_⟩⟩
  · refine hpins.imp ?_
    intro a b hab
    rw [hdesc] at hab
    exact Board.pinLe_bucket_consequence _ a b hab
  · refine hfavs.imp ?_
    intro a b hab
    rw [hdesc] at hab
    exact Board.pinLe_bucket_consequence _ a b hab

/-- Witness for `C6_pin_listing_order`: a board with one pinned, one normal
and one archived pin listed under the default (descending) direction. -/
theorem C6_pin_listing_order_witness :
    List.Pairwise Board.pinnedFirstArchivedLast
      (Board.get_pins [⟨1, "u", PermLevel.view⟩]
        [⟨1, 1, 0, "", "c", 10, 10, 0⟩, ⟨2, 1, 0, "", "c", 20, 20, 4⟩,
          ⟨3, 1, 0, "", "c", 30, 30, 2⟩]
        "u" none none none none none none none) ∧
    List.Pairwise Board.pinnedFirstArchivedLast
      (Board.get_favorites [⟨1, "u", PermLevel.view⟩]
        [⟨1, 1, 0, "", "c", 10, 10, 0⟩, ⟨2, 1, 0, "", "c", 20, 20, 4⟩,
          ⟨3, 1, 0, "", "c", 30, 30, 2⟩]
        [("u", 1), ("u", 2), ("u", 3)] "u" none none none none) :=
  (C6_pin_listing_order [⟨1, "u", PermLevel.view⟩]
    [⟨1, 1, 0, "", "c", 10, 10, 0⟩, ⟨2, 1, 0, "", "c", 20, 20, 4⟩,
      ⟨3, 1, 0, "", "c", 30, 30, 2⟩]
    [("u", 1), ("u", 2), ("u", 3)] "u" none none none none none none none).2 rfl

/-- Claim C7, counterexample: a login attempt for username `public` is
rejected, but no `login_attempts` row is appended, although the claim says a
row recording the outcome is appended in every case. -/
theorem C7_counterexample :
    (Login.can_login (fun _ _ => false) ⟨64, 60, 5⟩ ⟨[("public", "H")], [], 0⟩
      "public" "pw" "1.2.3.4" 0).1 = false ∧
    (Login.can_login (fun _ _ => false) ⟨64, 60, 5⟩ ⟨[("public", "H")], [], 0⟩
      "public" "pw" "1.2.3.4" 0).2.attempts = [] := by decide

/-- Claim C7 (amended): `can_login` returns true iff the username is not
`public`, the password byte length does not exceed the configured maximum, the
password is non-empty, and the stored hash verifies against the submitted
password (an unknown user fails because verification runs against a blank
hash); a `login_attempts` row recording the outcome is appended in every case
except a `public`-username attempt, which is rejected before logging. -/
theorem C7_login_rule (verify : String → String → Bool) (cfg : Login.LoginConfig)
    (st : Login.AuthState) (user_id password ip : String) (now : Int)
    (hblank : ∀ p, verify "" p = false) :
    ((Login.can_login verify cfg st user_id password ip now).1 = true ↔
      (user_id ≠ "public" ∧ rustStrLen password ≤ cfg.max_password_length ∧
        password ≠ "" ∧
        ∃ h, alookup st.users user_id = some h ∧ verify h password = true)) ∧
    (user_id ≠ "public" →
      (Login.can_login verify cfg st user_id password ip now).2.attempts =
        st.attempts ++ [⟨st.next_id, Login.rustToLowercase user_id, ip,
          (Login.can_login verify cfg st user_id password ip now).1, now⟩]) ∧
    (user_id = "public" →
      (Login.can_login verify cfg st user_id password ip now).2 = st) := by
  have hempty : password = "" ↔ password.toList = [] :=
    ⟨fun h => by rw [h]; rfl, fun h => String.ext h⟩
  by_cases hpub : user_id = "public"
  · unfold Login.can_login
    rw [if_pos hpub]
    refine ⟨?_, ?_, ?_⟩
    · simp [hpub]
    · intro hne
      exact absurd hpub hne
    · intro _
      rfl
  · unfold Login.can_login
    rw [if_neg hpub]
    by_cases hlen : cfg.max_password_length < rustStrLen password
    · rw [if_pos hlen]
      refine ⟨?_, fun _ => rfl, fun h => absurd h hpub⟩
      simp only [Bool.and_false, Bool.false_eq_true, false_iff]
      intro ⟨_, hle, _, _⟩
      omega
    · rw [if_neg hlen]
      refine ⟨?_, fun _ => rfl, fun h => absurd h hpub⟩
      simp only [Bool.and_true, Bool.and_eq_true, decide_eq_true_eq]
      constructor
      · intro ⟨hv, hlenpos⟩
        refine ⟨hpub, by omega, ?_, ?_⟩
        · intro hc
          rw [hempty.mp hc] at hlenpos
          simp at hlenpos
        · rcases hl : alookup st.users user_id with - | h
          · rw [hl] at hv
            simp only [Option.getD_none] at hv
            rw [hblank password] at hv
            exact absurd hv (by decide)
          · rw [hl] at hv
            exact ⟨h, rfl, hv⟩
      · intro ⟨_, _, hne, h, hl, hv⟩
        rw [hl]
        refine ⟨hv, ?_⟩
        have : password.toList ≠ [] := fun hc => hne (hempty.mpr hc)
        cases hc : password.toList with
        | nil => exact absurd hc this
        | cons c t => simp

/-- Witness for `C7_login_rule`: a successful login by `alice` appends its
`login_attempts` row. -/
theorem C7_login_rule_witness :
    (Login.can_login (fun h _ => decide (h = "H")) ⟨64, 60, 5⟩
        ⟨[("alice", "H")], [], 0⟩ "alice" "pw" "ip" 0).2.attempts =
      [] ++ [⟨0, Login.rustToLowercase "alice", "ip",
        (Login.can_login (fun h _ => decide (h = "H")) ⟨64, 60, 5⟩
          ⟨[("alice", "H")], [], 0⟩ "alice" "pw" "ip" 0).1, 0⟩] :=
  ((C7_login_rule (fun h _ => decide (h = "H")) ⟨64, 60, 5⟩ ⟨[("alice", "H")], [], 0⟩
    "alice" "pw" "ip" 0 (fun p => rfl)).2.1) (by decide)

/-- Claim C2 (code bug evidence): the most recent history row of pin 1 has the
same editor and is within 5 minutes, so the claim (and spec §4.3) requires it
to be overwritten in place; but the code's lookup keys on the table-wide
`MAX(id)`, which belongs to pin 2, so the lookup comes back empty and a brand
new row is inserted for pin 1 instead. -/
theorem C2_coalesce_global_max_bug :
    PinHistory.claimed_coalesce_target
        [⟨1, "e", 1, "old", 100, 0, [], "m"⟩, ⟨2, "f", 2, "x", 120, 0, [], "m"⟩] 1 =
      some ⟨1, "e", 1, "old", 100, 0, [], "m"⟩ ∧
    (150 : Int) - 5 * 60 < 100 ∧
    PinHistory.fetchCoalesceRow
        [⟨1, "e", 1, "old", 100, 0, [], "m"⟩, ⟨2, "f", 2, "x", 120, 0, [], "m"⟩] 1 =
      none ∧
    (PinHistory.add_to_pin_history
        [⟨1, "e", 1, "old", 100, 0, [], "m"⟩, ⟨2, "f", 2, "x", 120, 0, [], "m"⟩]
        3 1 "e" 150 "new" [] 0 "m").1.length = 3 ∧
    (⟨1, "e", 1, "old", 100, 0, [], "m"⟩ : PinHistory.HistoryRow) ∈
      (PinHistory.add_to_pin_history
        [⟨1, "e", 1, "old", 100, 0, [], "m"⟩, ⟨2, "f", 2, "x", 120, 0, [], "m"⟩]
        3 1 "e" 150 "new" [] 0 "m").1 := by decide

/-- Claim C10: when `new_color` has more than 7 characters or contains a
character that is not `#`, alphabetic or numeric, `mass_edit_pin_colors`
returns `Ok` without touching any pin row, and the HTTP route answers 200
with its success message instead of a validation error. -/
theorem C10_invalid_color_noop
    (isAlphabetic isNumeric : Char → Bool) (perms : List Board.BoardPermRow)
    (pins : List PinColors.PinRec) (user : String) (pin_ids : List Nat)
    (new_color : String) (now : Int)
    (h : 7 < new_color.toList.length ∨
      ∃ c ∈ new_color.toList, ¬(c = '#' ∨ isAlphabetic c = true ∨ isNumeric c = true)) :
    PinColors.mass_edit_pin_colors isAlphabetic isNumeric perms pins user pin_ids
        new_color now = PinColors.DbResult.ok pins ∧
    PinColors.bulk_modify_pin_colors isAlphabetic isNumeric perms pins user pin_ids
        new_color now = PinColors.ColorsRouteResponse.ok200 "Updated pin colors" := by
  have hguard : (7 < rustStrLen new_color ||
      !(new_color.toList.all (fun c => c = '#' || isAlphabetic c || isNumeric c))) = true := by
    rcases h with h | ⟨c, hc, hbad⟩
    · have hle := toList_length_le_rustStrLen new_color
      have : 7 < rustStrLen new_color := by omega
      simp [this]
    · have hall : new_color.toList.all
          (fun c => c = '#' || isAlphabetic c || isNumeric c) = false := by
        cases hcase : new_color.toList.all
            (fun c => c = '#' || isAlphabetic c || isNumeric c)
        · rfl
        · exfalso
          have := List.all_eq_true.mp hcase c hc
          simp only [Bool.or_eq_true, decide_eq_true_eq] at this
          tauto
      rw [hall]
      simp
  have h1 : PinColors.mass_edit_pin_colors isAlphabetic isNumeric perms pins user
      pin_ids new_color now = PinColors.DbResult.ok pins := by
    unfold PinColors.mass_edit_pin_colors
    rw [hguard]
    simp
  refine ⟨h1, ?_⟩
  unfold PinColors.bulk_modify_pin_colors
  rw [h1]

/-- Witness for `C10_invalid_color_noop`: the color `@@@@` is silently
accepted without modifying the single editable pin. -/
theorem C10_invalid_color_noop_witness :
    PinColors.mass_edit_pin_colors Char.isAlpha Char.isDigit
        [⟨1, "u", PermLevel.owner⟩] [⟨1, 1, "c", 0, 0, []⟩] "u" [1] "@@@@" 5 =
      PinColors.DbResult.ok [⟨1, 1, "c", 0, 0, []⟩] ∧
    PinColors.bulk_modify_pin_colors Char.isAlpha Char.isDigit
        [⟨1, "u", PermLevel.owner⟩] [⟨1, 1, "c", 0, 0, []⟩] "u" [1] "@@@@" 5 =
      PinColors.ColorsRouteResponse.ok200 "Updated pin colors" :=
  C10_invalid_color_noop Char.isAlpha Char.isDigit
    [⟨1, "u", PermLevel.owner⟩] [⟨1, 1, "c", 0, 0, []⟩] "u" [1] "@@@@" 5
    (by decide)

namespace Login

theorem pruneAttempts_sublist (l : List AttemptRow) : (pruneAttempts l).Sublist l :=
  List.filter_sublist l

theorem mem_pruneAttempts_keep {l : List AttemptRow} {r : AttemptRow}
    (h : r ∈ pruneAttempts l) :
    (((sortRows (fun a b => decide (b.time ≤ a.time)) l).take 10000).map
      (fun x => x.id)).contains r.id = true := by
  have h' : r ∈ l.filter (fun r =>
      (((sortRows (fun a b => decide (b.time ≤ a.time)) l).take 10000).map
        (fun x => x.id)).contains r.id) := h
  exact @List.of_mem_filter AttemptRow
    (fun r => (((sortRows (fun a b => decide (b.time ≤ a.time)) l).take 10000).map
      (fun x => x.id)).contains r.id) r l h'

theorem pruneAttempts_of_length_le (l : List AttemptRow) (h : l.length ≤ 10000) :
    pruneAttempts l = l := by
  show l.filter (fun r =>
      (((sortRows (fun a b => decide (b.time ≤ a.time)) l).take 10000).map
        (fun x => x.id)).contains r.id) = l
  refine List.filter_eq_self.mpr ?_
  intro r hr
  have hlen : (sortRows (fun a b => decide (b.time ≤ a.time)) l).length ≤ 10000 := by
    rw [length_sortRows]
    exact h
  rw [List.take_of_length_le hlen]
  have hmem : r ∈ sortRows (fun a b => decide (b.time ≤ a.time)) l :=
    (mem_sortRows _ _ _).mpr hr
  exact List.elem_iff.mpr (List.mem_map_of_mem _ hmem)

theorem length_pruneAttempts_le (l : List AttemptRow)
    (hnd : (l.map (fun r => r.id)).Nodup) : (pruneAttempts l).length ≤ 10000 := by
  have hkeep : (((sortRows (fun a b => decide (b.time ≤ a.time)) l).take 10000).map
      (fun x => x.id)).length ≤ 10000 := by
    rw [List.length_map, List.length_take]
    exact min_le_left _ _
  have hfnd : ((pruneAttempts l).map (fun r => r.id)).Nodup :=
    List.Nodup.sublist (List.Sublist.map _ (pruneAttempts_sublist l)) hnd
  have hsub : ((pruneAttempts l).map (fun r => r.id)) ⊆
      ((sortRows (fun a b => decide (b.time ≤ a.time)) l).take 10000).map
        (fun x => x.id) := by
    intro x hx
    rcases List.mem_map.mp hx with ⟨r, hrf, hrx⟩
    have := List.elem_iff.mp (mem_pruneAttempts_keep hrf)
    rw [← hrx]
    exact this
  have hlen := (hfnd.subperm hsub).length_le
  rw [List.length_map] at hlen
  exact le_trans hlen hkeep

theorem should_ratelimit_state (cfg : LoginConfig) (st : AuthState)
    (user_id ip : String) (now : Int) :
    (should_ratelimit cfg st user_id ip now).2 =
      { st with attempts := pruneAttempts st.attempts } := rfl

theorem can_login_state (verify : String → String → Bool) (cfg : LoginConfig)
    (st : AuthState) (user_id password ip : String) (now : Int) :
    (user_id = "public" → (can_login verify cfg st user_id password ip now).2 = st) ∧
    (user_id ≠ "public" →
      (can_login verify cfg st user_id password ip now).2 =
        { st with
          attempts := st.attempts ++
            [⟨st.next_id, rustToLowercase user_id, ip,
              (can_login verify cfg st user_id password ip now).1, now⟩],
          next_id := st.next_id + 1 }) := by
  constructor
  · intro h
    unfold can_login
    rw [if_pos h]
  · intro h
    unfold can_login
    rw [if_neg h]

theorem login_route_state (verify : String → String → Bool) (cfg : LoginConfig)
    (st : AuthState) (username password ip : String) (now : Int) :
    login_route verify cfg st username password ip now =
      if (should_ratelimit cfg st username ip now).1 then
        { st with attempts := pruneAttempts st.attempts }
      else (can_login verify cfg { st with attempts := pruneAttempts st.attempts }
        username password ip now).2 := by
  simp only [login_route]
  rw [should_ratelimit_state]

theorem reachable_attempts_invariant (verify : String → String → Bool)
    (cfg : LoginConfig) (st : AuthState) (h : Reachable verify cfg st) :
    (st.attempts.map (fun r => r.id)).Nodup ∧
      ∀ r ∈ st.attempts, r.id < st.next_id := by
  induction h with
  | init users => exact ⟨by simp, by simp⟩
  | @step st' username password ip now hst ih =>
    rcases ih with ⟨hnd, hbound⟩
    have hndp : ((pruneAttempts st'.attempts).map (fun r => r.id)).Nodup :=
      List.Nodup.sublist (List.Sublist.map _ (pruneAttempts_sublist _)) hnd
    have hboundp : ∀ r ∈ pruneAttempts st'.attempts, r.id < st'.next_id :=
      fun r hr => hbound r ((pruneAttempts_sublist _).subset hr)
    rw [login_route_state]
    by_cases hrl : (should_ratelimit cfg st' username ip now).1 = true
    · rw [if_pos hrl]
      exact ⟨hndp, hboundp⟩
    · rw [if_neg hrl]
      by_cases hpub : username = "public"
      · rw [(can_login_state verify cfg _ username password ip now).1 hpub]
        exact ⟨hndp, hboundp⟩
      · rw [(can_login_state verify cfg _ username password ip now).2 hpub]
        dsimp only
        constructor
        · rw [List.map_append]
          refine List.nodup_append.mpr ⟨hndp, by simp, ?_⟩
          intro x hx hx'
          rcases List.mem_map.mp hx with ⟨r, hr, hrx⟩
          have hlt := hboundp r hr
          simp only [List.map_cons, List.map_nil, List.mem_singleton] at hx'
          omega
        · intro r hr
          rcases List.mem_append.mp hr with hr | hr
          · have := hboundp r hr
            omega
          · simp only [List.mem_singleton] at hr
            rw [hr]
            simp

end Login

/-- Claim C9, counterexample helper: one login attempt on a small-enough
state with an unreachable rate-limit threshold appends exactly one
`login_attempts` row. -/
theorem login_route_grows (verify : String → String → Bool) (cfg : Login.LoginConfig)
    (st : Login.AuthState) (username password ip : String) (now : Int)
    (hpub : username ≠ "public")
    (hsmall : st.attempts.length ≤ 10000)
    (hth : st.attempts.length < cfg.login_attempt_max_per_window) :
    (Login.login_route verify cfg st username password ip now).attempts.length =
      st.attempts.length + 1 := by
  have hprune := Login.pruneAttempts_of_length_le st.attempts hsmall
  have h1 : (Login.should_ratelimit cfg st username ip now).1 =
      decide (cfg.login_attempt_max_per_window ≤
        ((Login.pruneAttempts st.attempts).filter (fun r =>
          (r.name = username || r.ip = ip) && r.success = false &&
            decide (now - cfg.login_attempt_window ≤ r.time))).length) := rfl
  have hcount : ((Login.pruneAttempts st.attempts).filter (fun r =>
      (r.name = username || r.ip = ip) && r.success = false &&
        decide (now - cfg.login_attempt_window ≤ r.time))).length ≤
      st.attempts.length := by
    rw [hprune]
    exact List.length_filter_le _ _
  have hrl : (Login.should_ratelimit cfg st username ip now).1 = false := by
    rw [h1]
    exact decide_eq_false (by omega)
  have hrl' : ¬ (Login.should_ratelimit cfg st username ip now).1 = true := by
    rw [hrl]
    exact Bool.false_ne_true
  rw [Login.login_route_state, if_neg hrl',
    (Login.can_login_state verify cfg _ username password ip now).2 hpub]
  simp only [List.length_append, hprune]
  rfl

/-- Claim C9, counterexample helper: under a threshold of 20000 the login
subsystem reaches a state with any number `n ≤ 10001` of `login_attempts`
rows, starting from an empty table. -/
theorem reach_many_attempts : ∀ n, n ≤ 10001 →
    ∃ st : Login.AuthState,
      Login.Reachable (fun _ _ => false) ⟨64, 60, 20000⟩ st ∧
        st.attempts.length = n := by
  intro n
  induction n with
  | zero => exact fun _ => ⟨⟨[], [], 0⟩, Login.Reachable.init [], rfl⟩
  | succ k ih =>
    intro hk
    obtain ⟨st, hreach, hlen⟩ := ih (by omega)
    refine ⟨Login.login_route (fun _ _ => false) ⟨64, 60, 20000⟩ st "u" "p" "ip" 0,
      Login.Reachable.step "u" "p" "ip" 0 hreach, ?_⟩
    rw [login_route_grows (fun _ _ => false) ⟨64, 60, 20000⟩ st "u" "p" "ip" 0
      (by decide) (by omega) (show st.attempts.length < 20000 by omega)]
    omega

/-- Claim C9, counterexample: after 10001 successive login attempts from an
empty table, `login_attempts` holds 10001 rows — the prune to 10000 runs
before the insert, so the claimed 10000-row bound fails in the state right
after an attempt completes. -/
theorem C9_counterexample :
    ¬ (∀ st : Login.AuthState,
        Login.Reachable (fun _ _ => false) ⟨64, 60, 20000⟩ st →
          st.attempts.length ≤ 10000) := by
  intro hall
  obtain ⟨st, hreach, hlen⟩ := reach_many_attempts 10001 le_rfl
  have := hall st hreach
  omega

/-- Claim C9 (amended): in every reachable state the `login_attempts` table
holds at most 10001 rows — `should_ratelimit` prunes to the 10000 most recent
rows before `can_login` appends at most one, so the 10000 bound holds just
after pruning and may be exceeded by exactly one row after an attempt. -/
theorem C9_attempts_bound (verify : String → String → Bool) (cfg : Login.LoginConfig)
    (st : Login.AuthState) (h : Login.Reachable verify cfg st) :
    st.attempts.length ≤ 10001 := by
  cases h with
  | init users => simp
  | @step st' username password ip now hst =>
    have hinv := Login.reachable_attempts_invariant verify cfg st' hst
    have hple : (Login.pruneAttempts st'.attempts).length ≤ 10000 :=
      Login.length_pruneAttempts_le st'.attempts hinv.1
    rw [Login.login_route_state]
    by_cases hrl : (Login.should_ratelimit cfg st' username ip now).1 = true
    · rw [if_pos hrl]
      exact le_trans hple (by omega)
    · rw [if_neg hrl]
      by_cases hpub : username = "public"
      · rw [(Login.can_login_state verify cfg _ username password ip now).1 hpub]
        exact le_trans hple (by omega)
      · rw [(Login.can_login_state verify cfg _ username password ip now).2 hpub]
        simp only [List.length_append]
        simp only [List.length_cons, List.length_nil]
        omega

/-- Witness for `C9_attempts_bound` at the empty initial state. -/
theorem C9_attempts_bound_witness :
    (Login.AuthState.mk [] [] 0).attempts.length ≤ 10001 :=
  C9_attempts_bound (fun _ _ => false) ⟨64, 60, 5⟩ ⟨[], [], 0⟩ (Login.Reachable.init [])

theorem alookup_append {β : Type} (m l : List (String × β)) (u : String) :
    alookup (m ++ l) u =
      match alookup m u with
      | some v => some v
      | none => alookup l u := by
  induction m with
  | nil => rfl
  | cons kv t ih =>
    by_cases h : kv.1 = u
    · simp [alookup, h]
    · simp [alookup, h, ih]

theorem alookup_some_mem {β : Type} (m : List (String × β)) (u : String) (v : β)
    (h : alookup m u = some v) : (u, v) ∈ m := by
  induction m with
  | nil => cases h
  | cons kv t ih =>
    by_cases hk : kv.1 = u
    · simp only [alookup, hk, if_true, Option.some.injEq] at h
      have hkv : (u, v) = kv := by
        rw [← hk, ← h]
      rw [hkv]
      exact List.mem_cons_self _ _
    · simp only [alookup, hk, if_false] at h
      exact List.mem_cons_of_mem _ (ih h)

theorem alookup_ne_none_key {β : Type} (m : List (String × β)) (u : String)
    (h : alookup m u ≠ none) : u ∈ m.map Prod.fst := by
  induction m with
  | nil => exact absurd rfl h
  | cons kv t ih =>
    by_cases hk : kv.1 = u
    · rw [List.map_cons, ← hk]
      exact List.mem_cons_self _ _
    · simp only [alookup, hk, if_false] at h
      exact List.mem_cons_of_mem _ (ih h)

namespace BoardMod

theorem alookup_map_set (m : PermMap) (k : String) (v : PermLevel) (u : String) :
    alookup (m.map (fun kv => if kv.1 = k then (k, v) else kv)) u =
      if u = k then (if (alookup m k).isSome then some v else none)
      else alookup m u := by
  induction m with
  | nil => by_cases h : u = k <;> simp [alookup, h]
  | cons kv t ih =>
    by_cases hk : kv.1 = k
    · by_cases hu : u = k
      · simp [alookup, hk, hu]
      · have hku : ¬ k = u := fun hc => hu hc.symm
        have hkvu : ¬ kv.1 = u := fun hc => hu (hc.symm.trans hk)
        simp [alookup, hk, hu, hku, hkvu, ih]
    · by_cases hu2 : kv.1 = u
      · have hukn : ¬ u = k := fun hc => hk (hu2.trans hc)
        simp [alookup, hk, hu2, hukn]
      · simp [alookup, hk, hu2, ih]

theorem alookup_permInsert (m : PermMap) (k : String) (v : PermLevel) (u : String) :
    alookup (permInsert m k v) u = if u = k then some v else alookup m u := by
  unfold permInsert
  cases hs : (alookup m k).isSome
  · simp only [Bool.false_eq_true, if_false]
    rw [alookup_append]
    by_cases hu : u = k
    · have hnone : alookup m u = none := by
        rw [hu]
        cases hmk : alookup m k
        · rfl
        · rw [hmk] at hs
          cases hs
      rw [hnone, hu]
      simp [alookup]
    · have hku : ¬ k = u := fun hc => hu hc.symm
      cases hmu : alookup m u
      · simp [alookup, hku, hu]
      · simp [hu]
  · simp only [if_true]
    rw [alookup_map_set, hs]
    by_cases hu : u = k <;> simp [hu]

theorem alookup_map_demote (m : PermMap) (u : String) :
    alookup (m.map (fun kv =>
      if kv.2 = PermLevel.owner then (kv.1, PermLevel.edit) else kv)) u =
      (alookup m u).map
        (fun p => if p = PermLevel.owner then PermLevel.edit else p) := by
  induction m with
  | nil => rfl
  | cons kv t ih =>
    by_cases h : kv.1 = u
    · by_cases ho : kv.2 = PermLevel.owner <;> simp [alookup, h, ho]
    · by_cases ho : kv.2 = PermLevel.owner <;> simp [alookup, h, ho, ih]

theorem alookup_filter_key {β : Type} (p : String → Bool) (m : List (String × β))
    (u : String) :
    alookup (m.filter (fun kv => p kv.1)) u =
      if p u then alookup m u else none := by
  induction m with
  | nil => by_cases h : p u <;> simp [alookup, h]
  | cons kv t ih =>
    by_cases hk : kv.1 = u
    · by_cases hp : p kv.1
      · have hpu : p u = true := hk ▸ hp
        simp [List.filter_cons, hp, alookup, hk, hpu]
      · have hpu : ¬ p u = true := fun hc => hp (hk ▸ hc)
        simp [List.filter_cons, hp, alookup, hk, hpu, ih]
    · by_cases hp : p kv.1 <;> simp [List.filter_cons, hp, alookup, hk, ih]

theorem find?_key_eq_none_of_nodup (m : PermMap) (u : String)
    (h : u ∉ m.map Prod.fst) :
    m.find? (fun kv => kv.1 = u) = none := by
  refine List.find?_eq_none.mpr ?_
  intro kv hkv
  intro hc
  rw [decide_eq_true_eq] at hc
  exact h (hc ▸ List.mem_map_of_mem Prod.fst hkv)

theorem find?_filter_nodupkeys (m : PermMap) (q : String × PermLevel → Bool)
    (u : String) (hnd : (m.map Prod.fst).Nodup) :
    (m.filter q).find? (fun kv => kv.1 = u) =
      match alookup m u with
      | some v => if q (u, v) then some (u, v) else none
      | none => none := by
  induction m with
  | nil => rfl
  | cons kv t ih =>
    obtain ⟨k, v⟩ := kv
    rw [List.map_cons] at hnd
    rcases List.nodup_cons.mp hnd with ⟨hnotin, hnd'⟩
    by_cases hk : k = u
    · subst hk
      have htnone : alookup t k = none := by
        cases ht : alookup t k
        · rfl
        · exact absurd (List.mem_map_of_mem Prod.fst (alookup_some_mem t k _ ht)) hnotin
      by_cases hq : q (k, v)
      · simp [List.filter_cons, hq, List.find?_cons, alookup]
      · have hfnone : (t.filter q).find? (fun kv => kv.1 = k) = none := by
          refine List.find?_eq_none.mpr ?_
          intro kv2 hkv2
          intro hc
          rw [decide_eq_true_eq] at hc
          have hm : kv2.1 ∈ t.map Prod.fst :=
            List.mem_map_of_mem Prod.fst (List.mem_of_mem_filter hkv2)
          rw [hc] at hm
          exact hnotin hm
        simp [List.filter_cons, hq, alookup, hfnone]
    · have hku : ¬ (k = u) := hk
      by_cases hq : q (k, v)
      · simp only [List.filter_cons, hq, if_true, List.find?_cons, alookup]
        rw [if_neg hku]
        have : (decide (k = u)) = false := decide_eq_false hku
        simp only [this]
        exact ih hnd'
      · simp only [List.filter_cons, hq, Bool.false_eq_true, if_false, alookup]
        rw [if_neg hku]
        exact ih hnd'

theorem alookup_foldl_permInsert (entries : List (String × PermLevel)) (m : PermMap)
    (hnd : (entries.map Prod.fst).Nodup) (u : String) :
    alookup (entries.foldl (fun acc kv => permInsert acc kv.1 kv.2) m) u =
      match entries.find? (fun kv => kv.1 = u) with
      | some kv => some kv.2
      | none => alookup m u := by
  induction entries generalizing m with
  | nil => rfl
  | cons e es ih =>
    obtain ⟨k, v⟩ := e
    rw [List.map_cons] at hnd
    rcases List.nodup_cons.mp hnd with ⟨hnotin, hnd'⟩
    rw [List.foldl_cons, ih (permInsert m k v) hnd']
    by_cases hk : k = u
    · subst hk
      have hfind : es.find? (fun kv => kv.1 = k) = none := by
        refine List.find?_eq_none.mpr ?_
        intro kv hkv hc
        rw [decide_eq_true_eq] at hc
        have hm : kv.1 ∈ es.map Prod.fst := List.mem_map_of_mem Prod.fst hkv
        rw [hc] at hm
        exact hnotin hm
      rw [hfind]
      simp [List.find?_cons, alookup_permInsert]
    · have hd : (decide (k = u)) = false := decide_eq_false hk
      simp only [List.find?_cons, hd]
      cases hfind : es.find? (fun kv => kv.1 = u)
      · simp only [alookup_permInsert]
        rw [if_neg (fun hc => hk hc.symm)]
      · rfl

theorem alookup_restrict (user_id : String) (b_perms perms : PermMap)
    (hnd : (b_perms.map Prod.fst).Nodup) (u : String) :
    alookup (restrict_perms_for_editor user_id b_perms perms) u =
      if u ≠ user_id ∧ (alookup b_perms u = some PermLevel.edit ∨
          alookup b_perms u = some PermLevel.owner) then alookup b_perms u
      else (alookup perms u).map
        (fun p => if p = PermLevel.owner then PermLevel.edit else p) := by
  unfold restrict_perms_for_editor
  have hndf : ((b_perms.filter (fun kv =>
      (kv.2 = PermLevel.edit || kv.2 = PermLevel.owner) && kv.1 ≠ user_id)).map
        Prod.fst).Nodup :=
    List.Nodup.sublist (List.Sublist.map _ (List.filter_sublist _)) hnd
  rw [alookup_foldl_permInsert _ _ hndf u,
    find?_filter_nodupkeys b_perms _ u hnd, alookup_map_demote]
  cases halk : alookup b_perms u with
  | none => simp
  | some v =>
    by_cases hne : u = user_id
    · simp [hne]
    · cases v <;> simp [hne]

theorem permMapBEq_lookup (a b : PermMap) (h : permMapBEq a b = true) (u : String) :
    alookup a u = alookup b u := by
  unfold permMapBEq at h
  by_cases ha : alookup a u = none
  · by_cases hb : alookup b u = none
    · rw [ha, hb]
    · have hu : u ∈ b.map Prod.fst := alookup_ne_none_key b u hb
      have hh := List.all_eq_true.mp h u (List.mem_append.mpr (Or.inr hu))
      rw [decide_eq_true_eq] at hh
      exact hh
  · have hu : u ∈ a.map Prod.fst := alookup_ne_none_key a u ha
    have hh := List.all_eq_true.mp h u (List.mem_append.mpr (Or.inl hu))
    rw [decide_eq_true_eq] at hh
    exact hh

end BoardMod

/-- Claim C1: when the caller's level on the board is `Edit` and a perms map
is supplied, the stored permission map after `modify_board` equals the
submitted map transformed by the editor-restriction rules — submitted `Owner`
entries demoted to `Edit`, previous `Edit`/`Owner` holders other than the
caller restored, the creator at exactly `Owner`, and unknown usernames
dropped. Hypotheses: stored perm keys are unique, the caller holds `Edit`,
the creator holds `Owner` (spec invariant), and every stored perm user exists
(`board_perms.user_id REFERENCES users(id)`). -/
theorem C1_modify_board_editor_rules
    (users : List String) (user_id creator : String)
    (b_perms submitted : BoardMod.PermMap)
    (hndb : (b_perms.map Prod.fst).Nodup)
    (hcaller : alookup b_perms user_id = some PermLevel.edit)
    (hcreator : alookup b_perms creator = some PermLevel.owner)
    (hfk : ∀ kv ∈ b_perms, users.contains kv.1 = true)
    (u : String) :
    alookup (BoardMod.modify_board_perms users user_id creator b_perms (some submitted)) u
      = BoardMod.editor_restriction_spec users user_id creator b_perms submitted u := by
  simp only [BoardMod.modify_board_perms]
  by_cases heq : BoardMod.permMapBEq submitted b_perms = true
  · rw [if_pos heq]
    have hpt : ∀ w, alookup submitted w = alookup b_perms w :=
      fun w => BoardMod.permMapBEq_lookup submitted b_perms heq w
    unfold BoardMod.editor_restriction_spec
    by_cases huc : u = creator
    · rw [if_pos huc, huc, hcreator]
    · rw [if_neg huc]
      by_cases hres : u ≠ user_id ∧ (alookup b_perms u = some PermLevel.edit ∨
          alookup b_perms u = some PermLevel.owner)
      · rw [if_pos hres]
      · rw [if_neg hres, hpt u]
        cases hbu : alookup b_perms u with
        | none =>
          by_cases hcu : users.contains u = true
          · rw [if_pos hcu]
          · rw [if_neg hcu]
        | some p =>
          have hcu : users.contains u = true :=
            hfk (u, p) (alookup_some_mem _ _ _ hbu)
          rw [if_pos hcu]
          have hpno : p ≠ PermLevel.owner := by
            intro hc
            subst hc
            by_cases huid : u = user_id
            · rw [huid, hcaller] at hbu
              exact absurd hbu (by decide)
            · exact hres ⟨huid, Or.inr hbu⟩
          cases p
          · rfl
          · rfl
          · rfl
          · rfl
          · exact absurd rfl hpno
  · rw [if_neg heq, if_pos hcaller]
    simp only [alookup]
    by_cases huc : u = creator
    · unfold BoardMod.editor_restriction_spec
      rw [if_pos huc, if_pos (show creator = u from huc.symm)]
    · rw [if_neg (show ¬ creator = u from fun hc => huc hc.symm)]
      rw [BoardMod.alookup_filter_key (fun k => decide (k ≠ creator) && users.contains k)
        (BoardMod.restrict_perms_for_editor user_id b_perms submitted) u]
      rw [BoardMod.alookup_restrict user_id b_perms submitted hndb u]
      unfold BoardMod.editor_restriction_spec
      rw [if_neg huc]
      by_cases hres : u ≠ user_id ∧ (alookup b_perms u = some PermLevel.edit ∨
          alookup b_perms u = some PermLevel.owner)
      · rw [if_pos hres, if_pos hres]
        have hv : ∃ v, alookup b_perms u = some v := by
          rcases hres.2 with h | h
          · exact ⟨_, h⟩
          · exact ⟨_, h⟩
        obtain ⟨v, hv⟩ := hv
        have hcu : users.contains u = true :=
          hfk (u, v) (alookup_some_mem _ _ _ hv)
        rw [if_pos (by rw [hcu, decide_eq_true (show u ≠ creator from huc)]; rfl)]
      · rw [if_neg hres, if_neg hres]
        by_cases hcu : users.contains u = true
        · rw [if_pos hcu,
            if_pos (by rw [hcu, decide_eq_true (show u ≠ creator from huc)]; rfl)]
          cases hsu : alookup submitted u with
          | none => rfl
          | some q =>
            cases q
            · rfl
            · rfl
            · rfl
            · rfl
            · rfl
        · have hcu' : users.contains u = false := by
            cases hcb : users.contains u
            · rfl
            · exact absurd hcb hcu
          rw [if_neg hcu, if_neg (by rw [hcu']; simp)]

/-- Witness for `C1_modify_board_editor_rules`: editor `bob` submits `carol`
as `Owner` (demoted to `Edit`), `dave` at `SelfEdit`, and unknown `eve`
(dropped). -/
theorem C1_modify_board_editor_rules_witness :
    alookup (BoardMod.modify_board_perms ["alice", "bob", "carol", "dave"] "bob" "alice"
        [("alice", PermLevel.owner), ("bob", PermLevel.edit), ("carol", PermLevel.view)]
        (some [("carol", PermLevel.owner), ("dave", PermLevel.selfEdit),
          ("eve", PermLevel.view)])) "carol"
      = BoardMod.editor_restriction_spec ["alice", "bob", "carol", "dave"] "bob" "alice"
        [("alice", PermLevel.owner), ("bob", PermLevel.edit), ("carol", PermLevel.view)]
        [("carol", PermLevel.owner), ("dave", PermLevel.selfEdit),
          ("eve", PermLevel.view)] "carol" :=
  C1_modify_board_editor_rules ["alice", "bob", "carol", "dave"] "bob" "alice"
    [("alice", PermLevel.owner), ("bob", PermLevel.edit), ("carol", PermLevel.view)]
    [("carol", PermLevel.owner), ("dave", PermLevel.selfEdit), ("eve", PermLevel.view)]
    (by decide) (by decide) (by decide) (by decide) "carol"

namespace MassShare

theorem find?_filter_of_imp {α : Type} (l : List α) (q keep : α → Bool)
    (h : ∀ x ∈ l, q x = true → keep x = true) :
    (l.filter keep).find? q = l.find? q := by
  induction l with
  | nil => rfl
  | cons a t ih =>
    have iht := ih (fun x hx hqx => h x (List.mem_cons_of_mem a hx) hqx)
    by_cases hqa : q a = true
    · rw [List.filter_cons, if_pos (h a (List.mem_cons_self a t) hqa),
        List.find?_cons_of_pos _ hqa, List.find?_cons_of_pos _ hqa]
    · by_cases hka : keep a = true
      · rw [List.filter_cons, if_pos hka, List.find?_cons_of_neg _ hqa,
          List.find?_cons_of_neg _ hqa, iht]
      · rw [List.filter_cons, if_neg hka, List.find?_cons_of_neg _ hqa, iht]

theorem find?_map_pres {α : Type} (l : List α) (q : α → Bool) (f : α → α)
    (hpres : ∀ x, q (f x) = q x) :
    (l.map f).find? q = (l.find? q).map f := by
  induction l with
  | nil => rfl
  | cons a t ih =>
    by_cases hqa : q a = true
    · rw [List.map_cons, List.find?_cons_of_pos _ ((hpres a).trans hqa),
        List.find?_cons_of_pos _ hqa]
      rfl
    · rw [List.map_cons, List.find?_cons_of_neg _ (fun hc => hqa ((hpres a) ▸ hc)),
        List.find?_cons_of_neg _ hqa, ih]

theorem find?_map_invariant {α : Type} (l : List α) (q : α → Bool) (f : α → α)
    (hfix : ∀ x, q x = true → f x = x) (hpres : ∀ x, q (f x) = q x) :
    (l.map f).find? q = l.find? q := by
  rw [find?_map_pres l q f hpres]
  cases hf : l.find? q with
  | none => rfl
  | some r =>
    rw [show Option.map f (some r) = some (f r) from rfl,
      hfix r (List.find?_some hf)]

theorem findPerm_upsert_other (ps : List BPermRow) (b : Nat) (username : String)
    (lvl : PermLevel) (user : String) (h : username ≠ user) (bid : Nat) :
    findPerm (upsertPerm ps b username lvl) bid user = findPerm ps bid user := by
  unfold upsertPerm findPerm
  by_cases hany : ps.any (fun p => p.board_id = b && p.user_id = username) = true
  · rw [if_pos hany]
    rw [find?_map_invariant]
    · intro x hq
      rw [Bool.and_eq_true] at hq
      rcases hq with ⟨-, hu⟩
      rw [decide_eq_true_eq] at hu
      have hcond : (x.board_id = b && x.user_id = username) = false := by
        have hnu : ¬ (x.user_id = username) := fun hc => h (hc.symm.trans hu)
        simp [hnu]
      rw [hcond]
      rfl
    · intro x
      by_cases hc : (x.board_id = b && x.user_id = username) = true
      · rw [if_pos hc]
      · rw [if_neg hc]
  · rw [if_neg hany]
    rw [List.find?_append]
    cases hf : ps.find? (fun p => p.board_id = bid && p.user_id = user) with
    | some r => rfl
    | none =>
      have hnew : (([⟨b, username, lvl⟩] : List BPermRow).find?
          (fun p => p.board_id = bid && p.user_id = user)) = none := by
        refine List.find?_eq_none.mpr ?_
        intro x hx hq
        rw [List.mem_singleton] at hx
        rw [Bool.and_eq_true] at hq
        rcases hq with ⟨-, hu⟩
        rw [decide_eq_true_eq, hx] at hu
        exact h hu
      simp [hnew]

theorem findPerm_foldl_upsert (ids : List Nat) (ps : List BPermRow)
    (username : String) (perm : PermLevel) (user : String) (h : username ≠ user)
    (bid : Nat) :
    findPerm (ids.foldl (fun a b => upsertPerm a b username perm) ps) bid user =
      findPerm ps bid user := by
  induction ids generalizing ps with
  | nil => rfl
  | cons i rest ih =>
    rw [List.foldl_cons, ih (upsertPerm ps i username perm),
      findPerm_upsert_other ps i username perm user h bid]

theorem findPerm_applyAddLoop (owner_ids edit_ids : List Nat) (ceu users : List String)
    (perms_to_add : List (String × PermLevel)) (perms perms' : List BPermRow)
    (user : String) (hadd : ∀ kv ∈ perms_to_add, kv.1 ≠ user)
    (h : applyAddLoop owner_ids edit_ids ceu users perms_to_add perms = some perms')
    (bid : Nat) :
    findPerm perms' bid user = findPerm perms bid user := by
  induction perms_to_add generalizing perms with
  | nil =>
    simp only [applyAddLoop, Option.some.injEq] at h
    rw [h]
  | cons e rest ih =>
    obtain ⟨username, perm⟩ := e
    have hne : username ≠ user := hadd (username, perm) (List.mem_cons_self _ _)
    have hrest : ∀ kv ∈ rest, kv.1 ≠ user :=
      fun kv hkv => hadd kv (List.mem_cons_of_mem _ hkv)
    simp only [applyAddLoop] at h
    by_cases hu : users.contains username = true
    · rw [hu] at h
      simp only [Bool.not_true, Bool.false_eq_true, if_false] at h
      by_cases hc : (0 < ceu.length && 0 < edit_ids.length) = true
      · rw [if_pos hc] at h
        cases h
      · rw [if_neg hc] at h
        by_cases how : 0 < owner_ids.length
        · rw [if_pos how] at h
          rw [ih _ hrest h,
            findPerm_foldl_upsert owner_ids perms username perm user hne bid]
        · rw [if_neg how] at h
          exact ih _ hrest h
    · have hu' : users.contains username = false := by
        cases hub : users.contains username
        · rfl
        · exact absurd hub hu
      rw [hu'] at h
      simp only [Bool.not_false, if_true] at h
      exact ih _ hrest h

theorem findPerm_filter_keep (l : List BPermRow) (keep : BPermRow → Bool) (bid : Nat)
    (user : String) (h : ∀ p ∈ l, p.user_id = user → keep p = true) :
    findPerm (l.filter keep) bid user = findPerm l bid user := by
  unfold findPerm
  rw [find?_filter_of_imp]
  intro x hx hq
  rw [Bool.and_eq_true] at hq
  rcases hq with ⟨-, hu⟩
  exact h x hx (decide_eq_true_eq.mp hu)

theorem findPerm_creator_pass (l : List BPermRow) (boards : List BoardRow)
    (set_ids : List Nat) (user : String) (bid : Nat)
    (hcr : (∃ b ∈ boards, b.creator_id = user ∧ b.id = bid) →
      findPerm l bid user = some PermLevel.owner) :
    findPerm (l.map (fun p =>
      if boards.any (fun b => b.creator_id = p.user_id && b.id = p.board_id) &&
          set_ids.contains p.board_id then { p with perm_id := PermLevel.owner }
      else p)) bid user = findPerm l bid user := by
  unfold findPerm
  rw [find?_map_pres]
  · cases hf : l.find? (fun p => p.board_id = bid && p.user_id = user) with
    | none => rfl
    | some r =>
      have hq := List.find?_some hf
      rw [Bool.and_eq_true] at hq
      rcases hq with ⟨hb, hu⟩
      rw [decide_eq_true_eq] at hb hu
      by_cases hcond : (boards.any (fun b =>
          b.creator_id = r.user_id && b.id = r.board_id) &&
          set_ids.contains r.board_id) = true
      · have hex : ∃ b ∈ boards, b.creator_id = user ∧ b.id = bid := by
          rw [Bool.and_eq_true] at hcond
          rcases hcond with ⟨hany, -⟩
          rcases List.any_eq_true.mp hany with ⟨b, hbm, hbq⟩
          rw [Bool.and_eq_true] at hbq
          rcases hbq with ⟨hbc, hbi⟩
          rw [decide_eq_true_eq] at hbc hbi
          exact ⟨b, hbm, hu ▸ hbc, hb ▸ hbi⟩
        have hval := hcr hex
        unfold findPerm at hval
        rw [hf] at hval
        have hrp : r.perm_id = PermLevel.owner := by
          simpa using hval
        show some (if boards.any (fun b =>
            b.creator_id = r.user_id && b.id = r.board_id) &&
            set_ids.contains r.board_id then
          ({ r with perm_id := PermLevel.owner } : BPermRow) else r).perm_id =
          some r.perm_id
        rw [if_pos hcond, hrp]
      · show some (if boards.any (fun b =>
            b.creator_id = r.user_id && b.id = r.board_id) &&
            set_ids.contains r.board_id then
          ({ r with perm_id := PermLevel.owner } : BPermRow) else r).perm_id =
          some r.perm_id
        rw [if_neg hcond]
  · intro x
    by_cases hc : (boards.any (fun b => b.creator_id = x.user_id && b.id = x.board_id) &&
        set_ids.contains x.board_id) = true
    · rw [if_pos hc]
    · rw [if_neg hc]

end MassShare

namespace MassShare

theorem findPerm_owner_delete (perms : List BPermRow) (boards : List BoardRow)
    (set_ids : List Nat) (users_to_delete : List String) (user : String) (bid : Nat)
    (hdel : users_to_delete.contains user = false) (c : Prop) [Decidable c] :
    findPerm (if c then perms.filter (fun p =>
        !(boards.any (fun b => b.id = p.board_id && p.user_id ≠ b.creator_id) &&
          set_ids.contains p.board_id && users_to_delete.contains p.user_id))
      else perms) bid user = findPerm perms bid user := by
  by_cases hc : c
  · rw [if_pos hc]
    apply findPerm_filter_keep
    intro p hp hpu
    rw [hpu, hdel]
    simp
  · rw [if_neg hc]

theorem findPerm_edit_delete (perms : List BPermRow) (boards : List BoardRow)
    (set_ids : List Nat) (users_to_delete ceu : List String) (user : String)
    (bid : Nat) (hdel : users_to_delete.contains user = false) (c : Prop)
    [Decidable c] :
    findPerm (if c then perms.filter (fun p =>
        !(boards.any (fun b => b.id = p.board_id && p.user_id ≠ b.creator_id) &&
          set_ids.contains p.board_id && users_to_delete.contains p.user_id &&
          ceu.contains p.user_id))
      else perms) bid user = findPerm perms bid user := by
  by_cases hc : c
  · rw [if_pos hc]
    apply findPerm_filter_keep
    intro p hp hpu
    rw [hpu, hdel]
    simp
  · rw [if_neg hc]

theorem findPerm_creator_pass_if (l : List BPermRow) (boards : List BoardRow)
    (set_ids : List Nat) (user : String) (bid : Nat) (c : Prop) [Decidable c]
    (hcr : (∃ b ∈ boards, b.creator_id = user ∧ b.id = bid) →
      findPerm l bid user = some PermLevel.owner) :
    findPerm (if c then l.map (fun p =>
      if boards.any (fun b => b.creator_id = p.user_id && b.id = p.board_id) &&
          set_ids.contains p.board_id then { p with perm_id := PermLevel.owner }
      else p) else l) bid user = findPerm l bid user := by
  by_cases hc : c
  · rw [if_pos hc]
    exact findPerm_creator_pass l boards set_ids user bid hcr
  · rw [if_neg hc]

end MassShare

/-- Claim C8, counterexample: `alice` is `Owner` (but not creator) of board 1
and includes herself in `perms_to_add` at level `View`; after the bulk change
her own permission row on the touched board has dropped from `Owner` to
`View`, although the claim says the caller's own row is unchanged whatever
`perms_to_add` contains. -/
theorem C8_counterexample :
    MassShare.findPerm
      (MassShare.BoardState.mk ["alice", "bob"] [⟨1, "bob"⟩]
        [⟨1, "alice", PermLevel.owner⟩, ⟨1, "bob", PermLevel.owner⟩]).perms
      1 "alice" = some PermLevel.owner ∧
    MassShare.findPerm
      (MassShare.mass_change_board_share_perms
        (MassShare.BoardState.mk ["alice", "bob"] [⟨1, "bob"⟩]
          [⟨1, "alice", PermLevel.owner⟩, ⟨1, "bob", PermLevel.owner⟩])
        "alice" [1] [("alice", PermLevel.view)] []).1.perms
      1 "alice" = some PermLevel.view := by decide

/-- Claim C8 (amended): provided the caller is named in neither `perms_to_add`
nor `users_to_delete`, and every board the caller created carries the caller's
`Owner` row (the creator-is-Owner invariant), the caller's own permission row
on every board is the same after `mass_change_board_share_perms` as before. -/
theorem C8_caller_row_preserved
    (st : MassShare.BoardState) (user : String) (ids : List Nat)
    (perms_to_add : List (String × PermLevel)) (users_to_delete : List String)
    (hadd : ∀ kv ∈ perms_to_add, kv.1 ≠ user)
    (hdel : users_to_delete.contains user = false)
    (hcreator : ∀ b ∈ st.boards, b.creator_id = user →
      MassShare.findPerm st.perms b.id user = some PermLevel.owner)
    (bid : Nat) :
    MassShare.findPerm
      (MassShare.mass_change_board_share_perms st user ids perms_to_add
        users_to_delete).1.perms bid user =
    MassShare.findPerm st.perms bid user := by
  simp only [MassShare.mass_change_board_share_perms]
  cases happly : MassShare.applyAddLoop
      (MassShare.allowed_board_ids st user (ids.take 200) PermLevel.owner)
      (MassShare.allowed_board_ids st user (ids.take 200) PermLevel.edit)
      (MassShare.can_edit_users st
        (MassShare.allowed_board_ids st user (ids.take 200) PermLevel.edit))
      st.users perms_to_add st.perms with
  | none => rfl
  | some perms1 =>
    dsimp only
    have e1 : MassShare.findPerm perms1 bid user =
        MassShare.findPerm st.perms bid user :=
      MassShare.findPerm_applyAddLoop _ _ _ _ _ _ _ user hadd happly bid
    generalize hg2 : (if (0 <
        (MassShare.allowed_board_ids st user (ids.take 200) PermLevel.owner).length &&
        0 < users_to_delete.length) then
        perms1.filter (fun p => !(st.boards.any (fun b =>
          b.id = p.board_id && p.user_id ≠ b.creator_id) &&
          (MassShare.allowed_board_ids st user (ids.take 200)
            PermLevel.owner).contains p.board_id &&
          users_to_delete.contains p.user_id))
      else perms1) = p2
    have e2 : MassShare.findPerm p2 bid user =
        MassShare.findPerm perms1 bid user := by
      rw [← hg2]
      exact MassShare.findPerm_owner_delete perms1 st.boards _ users_to_delete user
        bid hdel _
    generalize hg3 : (if (0 <
        (MassShare.allowed_board_ids st user (ids.take 200) PermLevel.edit).length &&
        0 < users_to_delete.length &&
        0 < (MassShare.can_edit_users st
          (MassShare.allowed_board_ids st user (ids.take 200)
            PermLevel.edit)).length) then
        p2.filter (fun p => !(st.boards.any (fun b =>
          b.id = p.board_id && p.user_id ≠ b.creator_id) &&
          (MassShare.allowed_board_ids st user (ids.take 200)
            PermLevel.edit).contains p.board_id &&
          users_to_delete.contains p.user_id &&
          (MassShare.can_edit_users st
            (MassShare.allowed_board_ids st user (ids.take 200)
              PermLevel.edit)).contains p.user_id))
      else p2) = p3
    have e3 : MassShare.findPerm p3 bid user =
        MassShare.findPerm p2 bid user := by
      rw [← hg3]
      exact MassShare.findPerm_edit_delete p2 st.boards _ users_to_delete _ user
        bid hdel _
    have hcr3 : (∃ b ∈ st.boards, b.creator_id = user ∧ b.id = bid) →
        MassShare.findPerm p3 bid user = some PermLevel.owner := by
      intro hex
      obtain ⟨b, hbm, hbc, hbi⟩ := hex
      rw [e3, e2, e1, ← hbi]
      exact hcreator b hbm hbc
    generalize hg4 : (if (0 <
        (MassShare.allowed_board_ids st user (ids.take 200) PermLevel.owner).length) then
        p3.map (fun p => if st.boards.any (fun b =>
          b.creator_id = p.user_id && b.id = p.board_id) &&
          (MassShare.allowed_board_ids st user (ids.take 200)
            PermLevel.owner).contains p.board_id then
          { p with perm_id := PermLevel.owner } else p)
      else p3) = p4
    have e4 : MassShare.findPerm p4 bid user =
        MassShare.findPerm p3 bid user := by
      rw [← hg4]
      exact MassShare.findPerm_creator_pass_if p3 st.boards _ user bid _ hcr3
    have hcr4 : (∃ b ∈ st.boards, b.creator_id = user ∧ b.id = bid) →
        MassShare.findPerm p4 bid user = some PermLevel.owner := by
      intro hex
      rw [e4]
      exact hcr3 hex
    generalize hg5 : (if (0 <
        (MassShare.allowed_board_ids st user (ids.take 200) PermLevel.edit).length) then
        p4.map (fun p => if st.boards.any (fun b =>
          b.creator_id = p.user_id && b.id = p.board_id) &&
          (MassShare.allowed_board_ids st user (ids.take 200)
            PermLevel.edit).contains p.board_id then
          { p with perm_id := PermLevel.owner } else p)
      else p4) = p5
    have e5 : MassShare.findPerm p5 bid user =
        MassShare.findPerm p4 bid user := by
      rw [← hg5]
      exact MassShare.findPerm_creator_pass_if p4 st.boards _ user bid _ hcr4
    exact e5.trans (e4.trans (e3.trans (e2.trans e1)))

/-- Witness for `C8_caller_row_preserved`: `alice` (Owner, not creator) adds
`carol` at `Edit` and deletes `bob` (the creator, thus protected); her own
row on board 1 is untouched. -/
theorem C8_caller_row_preserved_witness :
    MassShare.findPerm
      (MassShare.mass_change_board_share_perms
        (MassShare.BoardState.mk ["alice", "bob", "carol"] [⟨1, "bob"⟩]
          [⟨1, "alice", PermLevel.owner⟩, ⟨1, "bob", PermLevel.owner⟩])
        "alice" [1] [("carol", PermLevel.edit)] ["bob"]).1.perms 1 "alice" =
    MassShare.findPerm
      (MassShare.BoardState.mk ["alice", "bob", "carol"] [⟨1, "bob"⟩]
        [⟨1, "alice", PermLevel.owner⟩, ⟨1, "bob", PermLevel.owner⟩]).perms
      1 "alice" :=
  C8_caller_row_preserved
    (MassShare.BoardState.mk ["alice", "bob", "carol"] [⟨1, "bob"⟩]
      [⟨1, "alice", PermLevel.owner⟩, ⟨1, "bob", PermLevel.owner⟩])
    "alice" [1] [("carol", PermLevel.edit)] ["bob"]
    (by decide) (by decide) (by decide) 1
